import Mathlib

/-!
Shallow embedding of the XenonPy dataset cache / versioned-artifact store
(`xenonpy/utils/datatools.py`): the `Loader` / `Saver` pair.

Python values stored by the `Saver` are modelled by `PyVal`; files on disk
carry a `FileContent` (the serialized bytes, tagged with the serializer that
produced them) and a modification time drawn from a logical clock.  The
`Saver`'s in-memory index (`self._files`, a `defaultdict(list)`) is modelled
as an insertion-ordered association list, with the defaultdict's
insert-on-read behaviour made explicit (`ddAccess`).  Paths are modelled by
file names relative to the store directory (the directory part of a path
contains no `.@<digits>.` marker, so the version-number regex of
`Saver.__call__._get_file_index` sees its last match inside the file name).
-/

set_option maxHeartbeats 1000000

/-- An opaque stand-in for a `pandas.DataFrame` value. -/
structure DataFrame where
  raw : Nat
deriving DecidableEq

/-- A Python value handled by the store: a `pandas.DataFrame`, any other
pickle-serializable object (`blob`), or a `dict` of values (as produced by
`Saver.dump`). -/
inductive PyVal where
  | df (d : DataFrame)
  | blob (n : Nat)
  | mapping (m : List (String × PyVal))

/-- Serialized file content, tagged with the serializer that wrote it:
`pdBytes v` is a plain pickle stream written by `pd.to_pickle`, `jlBytes v`
is a (zlib-compressed, because the target file name ends in `.z`) joblib
stream written by `joblib.dump`. -/
inductive FileContent where
  | pdBytes (v : PyVal)
  | jlBytes (v : PyVal)

/-- The Python exceptions surfaced by the code under study. -/
inductive PyErr where
  | indexError
  | fileNotFound (path : String)
  | valueError (msg : String)
  | decodeError
deriving DecidableEq

/-- `pd.read_pickle`: reads a plain pickle stream; a zlib-compressed joblib
stream is not a pickle stream and fails to decode. -/
def pd_read_pickle : FileContent → Except PyErr PyVal
  | .pdBytes v => .ok v
  | .jlBytes _ => .error .decodeError

/-- `joblib.load`: reads joblib streams and falls back to plain pickle
streams. -/
def joblib_load : FileContent → Except PyErr PyVal
  | .pdBytes v => .ok v
  | .jlBytes v => .ok v

/-- A file in the store directory: name, modification time, content. -/
structure DFile where
  name : String
  mtime : Nat
  content : FileContent

/-- The in-memory index `Saver._files`: logical name to list of file names,
insertion-ordered like a Python `defaultdict`. -/
abbrev Files := List (String × List String)

/-- Plain association-list lookup (first entry whose key matches). -/
def ddFind (fs : Files) (k : String) : Option (List String) :=
  (fs.find? (fun p => p.1 == k)).map (fun p => p.2)

/-- `defaultdict.__getitem__`: reading a missing key inserts an empty group
(at the end, preserving insertion order) and returns it. -/
def ddAccess (fs : Files) (k : String) : List String × Files :=
  match ddFind fs k with
  | some g => (g, fs)
  | none => ([], fs ++ [(k, [])])

/-- Replace the group stored under key `k` (models in-place mutation of the
list object held by the defaultdict). -/
def ddSet (fs : Files) (k : String) (g : List String) : Files :=
  fs.map (fun p => if p.1 == k then (p.1, g) else p)

/-- Python `str.split(sep)` (non-empty separator) on character lists,
with explicit fuel (the input length suffices) so that it is structurally
recursive and evaluates inside the kernel.  `acc` holds the current
segment, reversed. -/
def charSplit (sep : List Char) : Nat → List Char → List Char → List (List Char)
  | _, acc, [] => [acc.reverse]
  | 0, acc, l => [acc.reverse ++ l]
  | fuel + 1, acc, c :: rest =>
    if sep.isPrefixOf (c :: rest) then
      acc.reverse :: charSplit sep fuel [] ((c :: rest).drop sep.length)
    else charSplit sep fuel (c :: acc) rest

/-- Python `s.split(sep)` for a non-empty separator. -/
def pySplit (s sep : String) : List String :=
  if sep.data.isEmpty then [s]
  else (charSplit sep.data s.data.length [] s.data).map String.mk

/-- `str.lower()` (ASCII, which is all a URL scheme can hold). -/
def strToLower (s : String) : String := String.mk (s.data.map Char.toLower)

/-- The decimal digit character for `n % 10`. -/
def decDigit (n : Nat) : Char :=
  match n with
  | 0 => '0' | 1 => '1' | 2 => '2' | 3 => '3' | 4 => '4'
  | 5 => '5' | 6 => '6' | 7 => '7' | 8 => '8' | _ => '9'

/-- The decimal digits of `n`, most significant first (`str(n)` in Python). -/
def natStrChars (n : Nat) : List Char :=
  if h : n < 10 then [decDigit n]
  else natStrChars (n / 10) ++ [decDigit (n % 10)]
decreasing_by
  exact Nat.div_lt_self (by omega) (by omega)

/-- `str(n)` for a natural number. -/
def natStr (n : Nat) : String := String.mk (natStrChars n)

/-- `int(s)` on a string of decimal digits. -/
def digitsVal (l : List Char) : Nat :=
  l.foldl (fun a c => a * 10 + (c.toNat - 48)) 0

/-- One attempted match of the regex `\.@\d+\.` at the head of the input:
on success returns the parsed integer (the digits between `.@` and `.`) and
the characters after the trailing `.` of the match. -/
def markerAt (l : List Char) : Option (Nat × List Char) :=
  match l with
  | c1 :: c2 :: rest2 =>
    if c1 = '.' ∧ c2 = '@' then
      let ds := rest2.takeWhile Char.isDigit
      if ds.isEmpty then none
      else
        match rest2.drop ds.length with
        | c3 :: rest3 => if c3 = '.' then some (digitsVal ds, rest3) else none
        | [] => none
    else none
  | _ => none

/-- `re.findall(r'\.@\d+\.', s)` with each match parsed by `int(m[2:-1])`:
scan left to right, non-overlapping matches. -/
def scanMarkers (l : List Char) : List Nat :=
  match l with
  | [] => []
  | c :: rest =>
    match h : markerAt (c :: rest) with
    | some (n, rest3) => n :: scanMarkers rest3
    | none => scanMarkers rest
termination_by l.length
decreasing_by
  · show rest3.length < (c :: rest).length
    cases rest with
    | nil => simp [markerAt] at h
    | cons c2 rest2 =>
      simp only [markerAt] at h
      split at h
      · split at h
        · exact absurd h (by simp)
        · split at h
          next c3 r3 hdrop =>
            split at h
            · have hlen := congrArg List.length hdrop
              simp [List.length_drop] at hlen
              cases h
              simp only [List.length_cons]
              omega
            · exact absurd h (by simp)
          next => exact absurd h (by simp)
      · exact absurd h (by simp)
  · simp

/-- `pathlib.Path(name).suffix`: the extension after the last dot of the
final path component, empty when there is no dot, when the dot is the first
character, or when the dot is the last character. -/
def pathSuffix (s : String) : String :=
  let r := s.data.reverse
  let pre := r.takeWhile (fun c => c != '.')
  match r.drop pre.length with
  | [] => ""
  | _ :: restTail =>
    if pre.isEmpty then ""
    else if restTail.isEmpty then ""
    else String.mk ('.' :: pre.reverse)

/-- `open(fn, 'wb')` + write on a directory listing: overwrite the file with
this name in place if it exists, otherwise create it; the (re)written file
gets modification time `t`. -/
def writeFileList (l : List DFile) (fn : String) (t : Nat) (c : FileContent) : List DFile :=
  match l with
  | [] => [⟨fn, t, c⟩]
  | f :: rest => if f.name == fn then ⟨fn, t, c⟩ :: rest else f :: writeFileList rest fn t c

/-- `Saver._load_data(file)`: open the file (FileNotFoundError if absent)
and dispatch on the path suffix: `.pd_` is read with `pd.read_pickle`,
anything else with `joblib.load`. -/
def loadData (disk : List DFile) (fn : String) : Except PyErr PyVal :=
  match disk.find? (fun f => f.name == fn) with
  | none => .error (.fileNotFound fn)
  | some f =>
    if pathSuffix fn == ".pd_" then pd_read_pickle f.content else joblib_load f.content

/-- The state of one `Saver` instance: dataset name, in-memory index
(`self._files`), the store directory contents, and a logical clock supplying
strictly increasing modification times. -/
structure SaverState where
  dataset : String
  files : Files
  disk : List DFile
  clock : Nat

/-- `Saver._save_data(data, filename)`: a `pandas.DataFrame` is written with
`pd.to_pickle` to `filename + '.pkl.pd_'`, anything else with `joblib.dump`
to `filename + '.pkl.z'`; returns the resulting file (name). -/
def saveData (st : SaverState) (data : PyVal) (filename : String) : String × SaverState :=
  match data with
  | .df d =>
    let file := filename ++ ".pkl.pd_"
    (file, { st with disk := writeFileList st.disk file st.clock (.pdBytes (.df d)),
                     clock := st.clock + 1 })
  | v =>
    let file := filename ++ ".pkl.z"
    (file, { st with disk := writeFileList st.disk file st.clock (.jlBytes v),
                     clock := st.clock + 1 })

/-- `f.match('*.pkl.*')`: the glob matches exactly the names containing
`.pkl.` as a substring. -/
def matchesPkl (s : String) : Bool := (pySplit s ".pkl.").length > 1

/-- `'.'.join(f.name.split('.')[:-3])`: drop the last three dot-separated
segments of the file name and re-join. -/
def stemOf (s : String) : String :=
  let parts := pySplit s "."
  String.intercalate "." (parts.take (parts.length - 3))

/-- One iteration of the grouping loop in `Saver._make_file_index`:
`self._files[fn].append(f)` with `fn` the stem of the file name. -/
def indexStep (acc : Files) (f : DFile) : Files :=
  let p := ddAccess acc (stemOf f.name)
  ddSet p.2 (stemOf f.name) (p.1 ++ [f.name])

/-- `os.path.getmtime` against the modelled directory listing. -/
def mtimeOf (disk : List DFile) (fn : String) : Nat :=
  match disk.find? (fun f => f.name == fn) with
  | some f => f.mtime
  | none => 0

/-- Stable insertion of a file name into a list sorted by mtime. -/
def insertByMtime (disk : List DFile) (x : String) : List String → List String
  | [] => [x]
  | y :: ys => if mtimeOf disk x ≤ mtimeOf disk y then x :: y :: ys else y :: insertByMtime disk x ys

/-- `fs.sort(key=lambda f: getmtime(str(f)))`: stable sort by modification
time, ascending. -/
def sortByMtime (disk : List DFile) : List String → List String
  | [] => []
  | x :: xs => insertByMtime disk x (sortByMtime disk xs)

/-- `Saver._make_file_index`: scan the store directory for `*.pkl.*` files,
group them by the stem of their name, and sort each group by modification
time. -/
def makeFileIndex (disk : List DFile) : Files :=
  let fs := disk.filter (fun f => matchesPkl f.name)
  let idx := fs.foldl indexStep []
  idx.map (fun p => (p.1, sortByMtime disk p.2))

/-- `Saver.__init__` with the store directory modelled as an optional
listing (`none` = the directory does not exist): the directory is created
(empty) when absent, then `_make_file_index` builds the in-memory index. -/
def saverInit (dataset : String) (dir : Option (List DFile)) (clock : Nat) : SaverState :=
  let disk := match dir with
    | none => ([] : List DFile)
    | some d => d
  { dataset := dataset, files := makeFileIndex disk, disk := disk, clock := clock }

/-- `Saver.__call__._get_file_index(fn)`: if the group under `fn` is
nonempty, parse the last `\.@\d+\.` marker out of the path of its last
entry (an IndexError if the path has no marker); otherwise return 0.  The
defaultdict read inserts an empty group for a missing `fn`. -/
def getFileIndex (files : Files) (fn : String) : Except PyErr (Nat × Files) :=
  let p := ddAccess files fn
  match p.1.getLast? with
  | none => .ok (0, p.2)
  | some last =>
    match (scanMarkers last.data).getLast? with
    | some n => .ok (n, p.2)
    | none => .error .indexError

/-- The first loop of `Saver.__call__`: positional (unnamed) values.  `num`
is read from the index only once, before the first value, then incremented
per value. -/
def callUnnamedLoop (st : SaverState) (num : Nat) : List PyVal → Except PyErr (SaverState × Nat)
  | [] => .ok (st, num)
  | d :: rest =>
    match (if num == 0 then getFileIndex st.files "unnamed" else .ok (num, st.files)) with
    | .error e => .error e
    | .ok (num1, files1) =>
      let num2 := num1 + 1
      let st1 : SaverState := { st with files := files1 }
      let p := saveData st1 d ("unnamed.@" ++ natStr num2)
      let q := ddAccess p.2.files "unnamed"
      let st3 : SaverState := { p.2 with files := ddSet q.2 "unnamed" (q.1 ++ [p.1]) }
      callUnnamedLoop st3 num2 rest

/-- The second loop of `Saver.__call__`: keyword (named) values; each name
reads its own counter. -/
def callNamedLoop (st : SaverState) : List (String × PyVal) → Except PyErr SaverState
  | [] => .ok st
  | (k, v) :: rest =>
    match getFileIndex st.files k with
    | .error e => .error e
    | .ok (n, files1) =>
      let num := n + 1
      let st1 : SaverState := { st with files := files1 }
      let p := saveData st1 v (k ++ ".@" ++ natStr num)
      let q := ddAccess p.2.files k
      let st3 : SaverState := { p.2 with files := ddSet q.2 k (q.1 ++ [p.1]) }
      callNamedLoop st3 rest

/-- `Saver.__call__(*data, **named_data)`: append positional values under
`'unnamed'`, then keyword values under their names. -/
def saverCall (st : SaverState) (data : List PyVal) (named : List (String × PyVal)) :
    Except PyErr SaverState :=
  match callUnnamedLoop st 0 data with
  | .error e => .error e
  | .ok (st1, _) => callNamedLoop st1 named

/-- `Saver.last(d_name)`: decode the last entry of the group under `d_name`
(`'unnamed'` when omitted); `[-1]` on an empty group is an IndexError.  The
defaultdict read inserts an empty group for a missing name, so the state is
returned alongside the result. -/
def lastOp (st : SaverState) (dname : Option String) : Except PyErr PyVal × SaverState :=
  let key := match dname with
    | none => "unnamed"
    | some s => s
  let p := ddAccess st.files key
  let st1 : SaverState := { st with files := p.2 }
  match p.1.getLast? with
  | none => (.error .indexError, st1)
  | some fn => (loadData st.disk fn, st1)

/-- Python list indexing: negative indices count from the end; out of range
is an IndexError (`none`). -/
def pyIndex (len : Nat) (i : Int) : Option Nat :=
  let j := if i < 0 then i + len else i
  if 0 ≤ j ∧ j < len then some j.toNat else none

/-- `os.remove(fn)` on the directory listing: FileNotFoundError if no file
with that name exists, else delete it. -/
def removeFile (disk : List DFile) (fn : String) : Except PyErr (List DFile) :=
  if disk.any (fun f => f.name == fn) then
    .ok (disk.filter (fun f => f.name != fn))
  else .error (.fileNotFound fn)

/-- The `if not d_name:` dispatch of `Saver.rm`: a falsy name (`None` or
the empty string) targets `'unnamed'`. -/
def rmKey (dname : Option String) : String :=
  match dname with
  | none => "unnamed"
  | some s => if s == "" then "unnamed" else s

/-- `Saver.rm(index, d_name)` for an integer index (the slice branch of the
source is not modelled; the claims only exercise integers).  A falsy
`d_name` (`None` or `''`) targets `'unnamed'`; both source branches then
read the group, `os.remove` the selected file and `del` the list entry. -/
def rm (st : SaverState) (idx : Int) (dname : Option String) : Except PyErr SaverState :=
  let key := rmKey dname
  let p := ddAccess st.files key
  match pyIndex p.1.length idx with
  | none => .error .indexError
  | some j =>
    match removeFile st.disk (p.1.getD j "") with
    | .error e => .error e
    | .ok disk1 => .ok { st with files := ddSet p.2 key (p.1.eraseIdx j), disk := disk1 }

/-- The dict comprehension of `Saver.dump`:
`{k: self._load_data(v[-1]) for k, v in self._files.items()}`, evaluated in
insertion order; `v[-1]` on an empty group is an IndexError. -/
def dumpCollect (disk : List DFile) : Files → Except PyErr (List (String × PyVal))
  | [] => .ok []
  | (k, g) :: rest =>
    match g.getLast? with
    | none => .error .indexError
    | some fn =>
      match loadData disk fn with
      | .error e => .error e
      | .ok v =>
        match dumpCollect disk rest with
        | .error e => .error e
        | .ok m => .ok ((k, v) :: m)

/-- `Saver.dump(fpath, rename=..., with_datetime=...)`: decode the latest
artifact of every group, joblib-dump the resulting dict to
`fpath / (name + datetime + '.pkl.z')` and return that path.  `dt.now()` is
abstracted by the `now` argument; the creation of `fpath` is implicit in
returning the written file. -/
def dump (st : SaverState) (fpath : String) (rename : Option String)
    (withDatetime : Bool) (now : String) : Except PyErr (String × FileContent) :=
  match dumpCollect st.disk st.files with
  | .error e => .error e
  | .ok ret =>
    let name := match rename with
      | some r => if r == "" then st.dataset else r
      | none => st.dataset
    let datetime := if withDatetime then now else ""
    let path := fpath ++ "/" ++ (name ++ datetime ++ ".pkl.z")
    .ok (path, .jlBytes (.mapping ret))

/-- `Saver.__getitem__((key, index))` for an integer index: defaultdict read
of the group (inserting an empty one for a missing key), then Python list
indexing and decoding. -/
def getItemNamedIdx (st : SaverState) (key : String) (idx : Int) :
    Except PyErr PyVal × SaverState :=
  let p := ddAccess st.files key
  let st1 : SaverState := { st with files := p.2 }
  match pyIndex p.1.length idx with
  | none => (.error .indexError, st1)
  | some j => (loadData st.disk (p.1.getD j ""), st1)

/-- `N` successive single-value keyword appends `save(**{name: v})`. -/
def appendSeqNamed (st : SaverState) (name : String) : List PyVal → Except PyErr SaverState
  | [] => .ok st
  | v :: rest =>
    match saverCall st [] [(name, v)] with
    | .error e => .error e
    | .ok st1 => appendSeqNamed st1 name rest

/-- The extension `_save_data` chooses for a value. -/
def extOf : PyVal → String
  | .df _ => ".pkl.pd_"
  | _ => ".pkl.z"

/-- The file content `_save_data` writes for a value. -/
def contOf : PyVal → FileContent
  | .df d => .pdBytes (.df d)
  | v => .jlBytes v

/-- The file name generated for the `i`-th append under `name`. -/
def fnameOf (name : String) (i : Nat) (v : PyVal) : String :=
  name ++ ".@" ++ natStr i ++ extOf v

/-- The file names generated by appending `us` under `name` after `k`
earlier appends. -/
def fnamesFrom (name : String) (k : Nat) : List PyVal → List String
  | [] => []
  | v :: rest => fnameOf name (k + 1) v :: fnamesFrom name (k + 1) rest

/-- The directory entries generated by appending `us` under `name` after
`k` earlier appends, starting at clock `c`. -/
def diskFrom (name : String) (k c : Nat) : List PyVal → List DFile
  | [] => []
  | v :: rest => ⟨fnameOf name (k + 1) v, c, contOf v⟩ :: diskFrom name (k + 1) (c + 1) rest

/-- The in-memory index after appending `us` under `name` to a store whose
index did not contain `name`. -/
def xFiles (files0 : Files) (name : String) (us : List PyVal) : Files :=
  if us.isEmpty then files0 else files0 ++ [(name, fnamesFrom name 0 us)]

/-- The saver state after appending `us` under `name` to state `st0`. -/
def xState (st0 : SaverState) (name : String) (us : List PyVal) : SaverState :=
  { dataset := st0.dataset
  , files := xFiles st0.files name us
  , disk := st0.disk ++ diskFrom name 0 st0.clock us
  , clock := st0.clock + us.length }

/-- The version numbers embedded in a group's file names, each extracted by
the same regex `_get_file_index` uses. -/
def versionsOf (g : List String) : List Nat :=
  g.map (fun fn => (scanMarkers fn.data).getLastD 0)

/-- The group stored under `k` in an index (empty when absent). -/
def indexGroup (idx : Files) (k : String) : List String :=
  (ddFind idx k).getD []

/-- Modelled from the spec: the claimed stem derivation, removing exactly
the last two dot-separated segments of a file name (for comparison with
`stemOf`, which the source derives with `split('.')[:-3]`). -/
def stripLastTwoSegments (s : String) : String :=
  let parts := pySplit s "."
  String.intercalate "." (parts.take (parts.length - 2))

/-- `'http' in scheme`: Python substring containment. -/
def strContains (s pat : String) : Bool := (pySplit s pat).length > 1

/-- A character allowed in a URL scheme by `urllib.parse`. -/
def isSchemeChar (c : Char) : Bool :=
  c.isAlpha || c.isDigit || c == '+' || c == '-' || c == '.'

/-- `urllib.parse.urlparse(url).scheme`: the text before the first `:`,
lowercased, when it is nonempty and made of scheme characters; otherwise the
empty string. -/
def urlScheme (url : String) : String :=
  match pySplit url ":" with
  | head :: _ :: _ =>
    if head != "" && head.data.all isSchemeChar then strToLower head else ""
  | _ => ""

/-- The observable outcome of `Loader._fetch_data(url)` up to the branch on
the scheme: either the ValueError raised before any I/O, or the handoff to
`Loader._http_data` (which performs the network request). -/
inductive FetchOutcome where
  | httpRequest (url : String)
  | schemeError (scheme : String)
deriving DecidableEq

/-- `Loader._fetch_data`: proceed to the HTTP request iff `'http' in
scheme`, else raise the unsupported-scheme ValueError. -/
def fetchData (url : String) : FetchOutcome :=
  let scheme := urlScheme url
  if strContains scheme "http" then .httpRequest url else .schemeError scheme

/-- `Loader.__init__`'s fixed preset list `self.dataset`. -/
def loaderDatasets : List String :=
  ["elements", "elements_completed", "mp_inorganic", "electron_density", "sample_A", "mp_structure"]

/-- The external collaborators of `Loader`: `_get_dataset_url` (imported
from the package root, not part of the sources under study), the remote
server (body returned for a GET), the optional `filename` response header,
and the configured directories. -/
structure LoaderEnv where
  dsURL : String → String
  remote : String → FileContent
  remoteFilename : String → Option String
  userdataDirs : List String
  cachedDirPath : String

/-- The filesystem state a `Loader` touches: the preset cache directory
`~/.xenonpy/dataset` and the download directory `~/.xenonpy/cached`, each a
name-to-content listing. -/
structure LoaderFS where
  datasetDir : List (String × FileContent)
  cachedDir : List (String × FileContent)

/-- Association-list lookup for a directory listing. -/
def lookupFS (l : List (String × FileContent)) (k : String) : Option FileContent :=
  (l.find? (fun p => p.1 == k)).map (fun p => p.2)

/-- Write (create or overwrite in place) a file in a directory listing. -/
def writeFS (l : List (String × FileContent)) (k : String) (c : FileContent) :
    List (String × FileContent) :=
  match l with
  | [] => [(k, c)]
  | p :: rest => if p.1 == k then (k, c) :: rest else p :: writeFS rest k c

/-- The three possible results of `Loader.__call__`. -/
inductive LoaderResult where
  | tabular (v : PyVal)
  | store (dataset : String)
  | localPath (p : String)

/-- `pathlib`'s `/` operator on string paths: an absolute right operand
replaces the left. -/
def pyPathJoin (a b : String) : String :=
  if b.startsWith "/" then b else a ++ "/" ++ b

/-- `Loader.__call__(dname)`: preset names are served from the dataset
cache, fetching (one GET, counted in the third component) only when the
cache file is absent; a name without `/` resolves to a user dataset
directory (a `Saver` handle, FileNotFoundError when the directory does not
exist); anything else is fetched into the download cache and its local path
returned. -/
def loaderCall (env : LoaderEnv) (fs : LoaderFS) (dname : String) :
    Except PyErr (LoaderResult × LoaderFS × Nat) :=
  if loaderDatasets.contains dname then
    let fname := dname ++ ".pkl.pd_"
    match lookupFS fs.datasetDir fname with
    | some content =>
      match pd_read_pickle content with
      | .ok v => .ok (.tabular v, fs, 0)
      | .error e => .error e
    | none =>
      match fetchData (env.dsURL dname) with
      | .schemeError s => .error (.valueError s)
      | .httpRequest url =>
        let content := env.remote url
        let fs1 : LoaderFS := { fs with datasetDir := writeFS fs.datasetDir fname content }
        match pd_read_pickle content with
        | .ok v => .ok (.tabular v, fs1, 1)
        | .error e => .error e
  else if (pySplit dname "/").length == 1 then
    if env.userdataDirs.contains dname then .ok (.store dname, fs, 0)
    else .error (.fileNotFound dname)
  else
    match fetchData dname with
    | .schemeError s => .error (.valueError s)
    | .httpRequest url =>
      let filename := match env.remoteFilename url with
        | some f => f
        | none => (pySplit url "/").getLastD ""
      let savedPath := env.cachedDirPath ++ "/" ++ filename
      let fs1 : LoaderFS := { fs with cachedDir := writeFS fs.cachedDir filename (env.remote url) }
      .ok (.localPath (pyPathJoin env.cachedDirPath savedPath), fs1, 1)

/-! ### Basic lemmas about digits, `str`/`int`, and the version-marker scan -/

theorem decDigit_isDigit (m : Nat) : (decDigit m).isDigit = true := by
  unfold decDigit
  split <;> decide

theorem decDigit_toNat (m : Nat) (h : m < 10) : (decDigit m).toNat - 48 = m := by
  interval_cases m <;> rfl

theorem decDigit_ne_dot (m : Nat) : decDigit m ≠ '.' := by
  unfold decDigit
  split <;> decide

theorem natStrChars_ne_nil (n : Nat) : natStrChars n ≠ [] := by
  rw [natStrChars]
  split
  · simp
  · simp

theorem natStrChars_all_digit (n : Nat) : ∀ c ∈ natStrChars n, c.isDigit = true := by
  induction n using Nat.strong_induction_on with
  | _ n ih =>
    rw [natStrChars]
    split
    · intro c hc
      simp at hc
      subst hc
      exact decDigit_isDigit n
    · intro c hc
      rcases List.mem_append.1 hc with h1 | h1
      · exact ih (n / 10) (Nat.div_lt_self (by omega) (by omega)) c h1
      · simp at h1
        subst h1
        exact decDigit_isDigit (n % 10)

theorem natStrChars_ne_dot (n : Nat) : ∀ c ∈ natStrChars n, c ≠ '.' := by
  intro c hc
  have := natStrChars_all_digit n c hc
  intro hdot
  subst hdot
  simp at this

theorem digitsVal_append_single (l : List Char) (c : Char) :
    digitsVal (l ++ [c]) = digitsVal l * 10 + (c.toNat - 48) := by
  simp [digitsVal, List.foldl_append]

theorem digitsVal_natStrChars (n : Nat) : digitsVal (natStrChars n) = n := by
  induction n using Nat.strong_induction_on with
  | _ n ih =>
    rw [natStrChars]
    split
    next h =>
      show digitsVal ([] ++ [decDigit n]) = n
      rw [digitsVal_append_single]
      simp [digitsVal]
      exact decDigit_toNat n h
    next h =>
      rw [digitsVal_append_single]
      rw [ih (n / 10) (Nat.div_lt_self (by omega) (by omega))]
      rw [decDigit_toNat (n % 10) (Nat.mod_lt n (by omega))]
      omega

theorem takeWhile_digits (ds rest : List Char) (hd : ∀ c ∈ ds, c.isDigit = true) :
    (ds ++ '.' :: rest).takeWhile Char.isDigit = ds := by
  induction ds with
  | nil => simp
  | cons c t iht =>
    rw [List.cons_append, List.takeWhile_cons]
    rw [hd c (by simp)]
    simp only [if_true]
    rw [iht (fun x hx => hd x (by simp [hx]))]

theorem markerAt_match (ds rest : List Char) (hne : ds ≠ [])
    (hd : ∀ c ∈ ds, c.isDigit = true) :
    markerAt ('.' :: '@' :: (ds ++ '.' :: rest)) = some (digitsVal ds, rest) := by
  simp only [markerAt]
  rw [if_pos (⟨trivial, trivial⟩ : True ∧ True)]
  rw [takeWhile_digits ds rest hd]
  rw [if_neg (by simpa [List.isEmpty_iff] using hne)]
  rw [List.drop_left]
  simp

theorem markerAt_cons_ne_dot (c : Char) (rest : List Char) (h : c ≠ '.') :
    markerAt (c :: rest) = none := by
  cases rest with
  | nil => rfl
  | cons c2 r => simp [markerAt, h]

theorem scanMarkers_cons_some {c : Char} {rest : List Char} {n : Nat} {r : List Char}
    (h : markerAt (c :: rest) = some (n, r)) :
    scanMarkers (c :: rest) = n :: scanMarkers r := by
  rw [scanMarkers]
  split
  next heq => rw [h] at heq; cases heq; rfl
  next heq => rw [h] at heq; cases heq

theorem scanMarkers_cons_none {c : Char} {rest : List Char}
    (h : markerAt (c :: rest) = none) :
    scanMarkers (c :: rest) = scanMarkers rest := by
  rw [scanMarkers]
  split
  next heq => rw [h] at heq; cases heq
  next => rfl

theorem scanMarkers_skip (l r : List Char) (h : ∀ c ∈ l, c ≠ '.') :
    scanMarkers (l ++ r) = scanMarkers r := by
  induction l with
  | nil => rfl
  | cons c t iht =>
    rw [List.cons_append]
    rw [scanMarkers_cons_none (markerAt_cons_ne_dot c (t ++ r) (h c (by simp)))]
    exact iht (fun x hx => h x (by simp [hx]))

theorem scanMarkers_marker (ds rest : List Char) (hne : ds ≠ [])
    (hd : ∀ c ∈ ds, c.isDigit = true) :
    scanMarkers ('.' :: '@' :: (ds ++ '.' :: rest)) = digitsVal ds :: scanMarkers rest :=
  scanMarkers_cons_some (markerAt_match ds rest hne hd)

/-! ### File-name structure: suffixes, embedded versions, injectivity -/

theorem takeWhile_of_all {α : Type} (p : α → Bool) (a : List α) (x : α) (t : List α)
    (ha : ∀ c ∈ a, p c = true) (hx : p x = false) :
    (a ++ x :: t).takeWhile p = a := by
  induction a with
  | nil => simp [List.takeWhile_cons, hx]
  | cons c cs ih =>
    rw [List.cons_append, List.takeWhile_cons, ha c (by simp)]
    simp only [if_true]
    rw [ih (fun y hy => ha y (by simp [hy]))]

theorem drop_of_append {α : Type} (a : List α) (t : List α) :
    (a ++ t).drop a.length = t :=
  List.drop_left a t

theorem markerAt_snd_ne_at (c1 c2 : Char) (r : List Char) (h : c2 ≠ '@') :
    markerAt (c1 :: c2 :: r) = none := by
  simp [markerAt, h]

theorem markerAt_none_no_at (l : List Char) (h : ∀ c ∈ l, c ≠ '@') :
    ∀ c, markerAt (c :: l) = none := by
  intro c
  cases l with
  | nil => rfl
  | cons c2 r => exact markerAt_snd_ne_at c c2 r (h c2 (by simp))

theorem scanMarkers_no_at (l : List Char) (h : ∀ c ∈ l, c ≠ '@') :
    scanMarkers l = [] := by
  induction l with
  | nil => rw [scanMarkers]
  | cons c rest ih =>
    rw [scanMarkers_cons_none (markerAt_none_no_at rest (fun x hx => h x (by simp [hx])) c)]
    exact ih (fun x hx => h x (by simp [hx]))

theorem fnameOf_data (name : String) (i : Nat) (v : PyVal) :
    (fnameOf name i v).data = name.data ++ '.' :: '@' :: (natStrChars i ++ (extOf v).data) := by
  show (name ++ ".@" ++ natStr i ++ extOf v).data = _
  rw [String.data_append, String.data_append, String.data_append]
  show (name.data ++ ['.', '@'] ++ natStrChars i) ++ (extOf v).data = _
  simp [List.append_assoc]

theorem extOf_data_shape (v : PyVal) : ∃ t, (extOf v).data = '.' :: t ∧ ∀ c ∈ t, c ≠ '@' := by
  cases v with
  | df d => exact ⟨['p','k','l','.','p','d','_'], rfl, by decide⟩
  | blob n => exact ⟨['p','k','l','.','z'], rfl, by decide⟩
  | mapping m => exact ⟨['p','k','l','.','z'], rfl, by decide⟩

theorem scanMarkers_fnameOf (name : String) (hname : ∀ c ∈ name.data, c ≠ '.')
    (i : Nat) (v : PyVal) :
    scanMarkers (fnameOf name i v).data = [i] := by
  obtain ⟨t, ht, hat⟩ := extOf_data_shape v
  rw [fnameOf_data, ht]
  rw [scanMarkers_skip name.data _ hname]
  have : natStrChars i ++ '.' :: t = natStrChars i ++ '.' :: t := rfl
  rw [scanMarkers_marker (natStrChars i) t (natStrChars_ne_nil i) (natStrChars_all_digit i)]
  rw [digitsVal_natStrChars, scanMarkers_no_at t hat]

theorem digit_block_inj (a : List Char) : ∀ (b t1 t2 : List Char),
    (∀ c ∈ a, c.isDigit = true) → (∀ c ∈ b, c.isDigit = true) →
    a ++ '.' :: t1 = b ++ '.' :: t2 → a = b := by
  induction a with
  | nil =>
    intro b t1 t2 _ hb h
    cases b with
    | nil => rfl
    | cons y b2 =>
      exfalso
      have hy : y = '.' := by
        have := congrArg (fun l => l.headI) h
        simpa using this.symm
      have := hb y (by simp)
      rw [hy] at this
      simp at this
  | cons x a2 ih =>
    intro b t1 t2 ha hb h
    cases b with
    | nil =>
      exfalso
      have hx : x = '.' := by
        have := congrArg (fun l => l.headI) h
        simpa using this
      have := ha x (by simp)
      rw [hx] at this
      simp at this
    | cons y b2 =>
      have hxy : x = y := by
        have := congrArg (fun l => l.headI) h
        simpa using this
      have htail : a2 ++ '.' :: t1 = b2 ++ '.' :: t2 := by
        have := congrArg List.tail h
        simpa using this
      rw [hxy, ih b2 t1 t2 (fun c hc => ha c (by simp [hc])) (fun c hc => hb c (by simp [hc])) htail]

theorem fnameOf_inj_version (name : String) (i j : Nat) (v w : PyVal)
    (h : fnameOf name i v = fnameOf name j w) : i = j := by
  have hd := congrArg String.data h
  rw [fnameOf_data, fnameOf_data] at hd
  have h1 := List.append_cancel_left hd
  have h2 : natStrChars i ++ (extOf v).data = natStrChars j ++ (extOf w).data := by
    have := congrArg List.tail (congrArg List.tail h1)
    simpa using this
  obtain ⟨t1, ht1, _⟩ := extOf_data_shape v
  obtain ⟨t2, ht2, _⟩ := extOf_data_shape w
  rw [ht1, ht2] at h2
  have := digit_block_inj (natStrChars i) (natStrChars j) t1 t2
    (natStrChars_all_digit i) (natStrChars_all_digit j) h2
  have hv := congrArg digitsVal this
  rwa [digitsVal_natStrChars, digitsVal_natStrChars] at hv

theorem pathSuffix_of_rev (s : String) (pre t : List Char)
    (h : s.data.reverse = pre ++ '.' :: t)
    (hpre : ∀ c ∈ pre, (c != '.') = true) (hpre_ne : pre ≠ []) (ht_ne : t ≠ []) :
    pathSuffix s = String.mk ('.' :: pre.reverse) := by
  have htw : (s.data.reverse).takeWhile (fun c => c != '.') = pre := by
    rw [h]
    exact takeWhile_of_all _ pre '.' t hpre (by decide)
  have hdrop : (s.data.reverse).drop pre.length = '.' :: t := by
    rw [h]
    exact drop_of_append pre ('.' :: t)
  simp only [pathSuffix, htw, hdrop]
  rw [if_neg (by simpa [List.isEmpty_iff] using hpre_ne)]
  rw [if_neg (by simpa [List.isEmpty_iff] using ht_ne)]

theorem pathSuffix_pd (s : String) : pathSuffix (s ++ ".pkl.pd_") = ".pd_" := by
  have hr : (s ++ ".pkl.pd_").data.reverse
      = ['_','d','p'] ++ '.' :: (['l','k','p','.'] ++ s.data.reverse) := by
    rw [String.data_append, List.reverse_append]
    rfl
  rw [pathSuffix_of_rev _ _ _ hr (by decide) (by decide) (by simp)]
  rfl

theorem pathSuffix_z (s : String) : pathSuffix (s ++ ".pkl.z") = ".z" := by
  have hr : (s ++ ".pkl.z").data.reverse
      = ['z'] ++ '.' :: (['l','k','p','.'] ++ s.data.reverse) := by
    rw [String.data_append, List.reverse_append]
    rfl
  rw [pathSuffix_of_rev _ _ _ hr (by decide) (by decide) (by simp)]
  rfl

/-! ### Lemmas about the defaultdict model and directory listings -/

theorem ddFind_nil (k : String) : ddFind [] k = none := rfl

theorem ddFind_not_mem {fs : Files} {k : String} (h : ddFind fs k = none) :
    ∀ p ∈ fs, (p.1 == k) = false := by
  intro p hp
  have hf : fs.find? (fun p => p.1 == k) = none := by
    simpa [ddFind] using h
  have := List.find?_eq_none.1 hf p hp
  simpa using this

theorem ddFind_append_right {fs1 : Files} (fs2 : Files) {k : String}
    (h : ddFind fs1 k = none) : ddFind (fs1 ++ fs2) k = ddFind fs2 k := by
  have hf : fs1.find? (fun p => p.1 == k) = none := by
    simpa [ddFind] using h
  simp [ddFind, List.find?_append, hf]

theorem ddFind_singleton_self (k : String) (g : List String) :
    ddFind [(k, g)] k = some g := by
  simp [ddFind, List.find?]

theorem ddFind_append_singleton {fs : Files} {k : String} (g : List String)
    (h : ddFind fs k = none) : ddFind (fs ++ [(k, g)]) k = some g := by
  rw [ddFind_append_right _ h, ddFind_singleton_self]

theorem ddAccess_found {fs : Files} {k : String} {g : List String}
    (h : ddFind fs k = some g) : ddAccess fs k = (g, fs) := by
  simp [ddAccess, h]

theorem ddAccess_missing {fs : Files} {k : String}
    (h : ddFind fs k = none) : ddAccess fs k = ([], fs ++ [(k, [])]) := by
  simp [ddAccess, h]

theorem ddFind_cons (p : String × List String) (rest : Files) (k : String) :
    ddFind (p :: rest) k = if p.1 == k then some p.2 else ddFind rest k := by
  simp only [ddFind, List.find?]
  cases h : p.1 == k
  · simp
  · simp

theorem ddSet_cons (p : String × List String) (rest : Files) (k : String) (g : List String) :
    ddSet (p :: rest) k g = (if p.1 == k then (p.1, g) else p) :: ddSet rest k g := rfl

theorem ddFind_cons_none {p : String × List String} {rest : Files} {k : String}
    (h : ddFind (p :: rest) k = none) :
    (p.1 == k) = false ∧ ddFind rest k = none := by
  rw [ddFind_cons] at h
  cases hp : p.1 == k
  · rw [hp] at h
    simp at h
    exact ⟨rfl, h⟩
  · rw [hp] at h
    simp at h

theorem ddSet_of_not_found {fs : Files} {k : String} (g : List String)
    (h : ddFind fs k = none) : ddSet fs k g = fs := by
  induction fs with
  | nil => rfl
  | cons p rest ih =>
    obtain ⟨hp, hrest⟩ := ddFind_cons_none h
    rw [ddSet_cons, hp]
    simp only [Bool.false_eq_true, if_false]
    rw [ih hrest]

theorem ddSet_append (fs1 fs2 : Files) (k : String) (g : List String) :
    ddSet (fs1 ++ fs2) k g = ddSet fs1 k g ++ ddSet fs2 k g := by
  simp [ddSet, List.map_append]

theorem ddSet_singleton_self (k : String) (g0 g : List String) :
    ddSet [(k, g0)] k g = [(k, g)] := by
  simp [ddSet]

theorem ddSet_append_singleton {fs : Files} {k : String} (g0 g : List String)
    (h : ddFind fs k = none) :
    ddSet (fs ++ [(k, g0)]) k g = fs ++ [(k, g)] := by
  rw [ddSet_append, ddSet_of_not_found g h, ddSet_singleton_self]

theorem ddFind_ddSet_other {fs : Files} {k k2 : String} (g : List String)
    (hne : k2 ≠ k) : ddFind (ddSet fs k g) k2 = ddFind fs k2 := by
  induction fs with
  | nil => rfl
  | cons p rest ih =>
    rw [ddSet_cons]
    by_cases hp : (p.1 == k) = true
    · rw [hp]
      simp only [if_true]
      rw [ddFind_cons, ddFind_cons]
      have hpk : p.1 = k := by simpa using hp
      have hp2 : (p.1 == k2) = false := by
        simp only [beq_eq_false_iff_ne, ne_eq, hpk]
        exact fun hc => hne hc.symm
      show (if (p.1 == k2) = true then some g else ddFind (ddSet rest k g) k2)
          = if (p.1 == k2) = true then some p.2 else ddFind rest k2
      rw [hp2]
      simp only [Bool.false_eq_true, if_false]
      exact ih
    · have hp' : (p.1 == k) = false := by simpa using hp
      rw [hp']
      simp only [Bool.false_eq_true, if_false]
      rw [ddFind_cons, ddFind_cons]
      by_cases hc : (p.1 == k2) = true
      · rw [hc]
        simp
      · have hc' : (p.1 == k2) = false := by simpa using hc
        rw [hc']
        simp only [Bool.false_eq_true, if_false]
        exact ih

theorem ddFind_ddSet_self {fs : Files} {k : String} {g0 : List String} (g : List String)
    (h : ddFind fs k = some g0) : ddFind (ddSet fs k g) k = some g := by
  induction fs with
  | nil => simp [ddFind] at h
  | cons p rest ih =>
    rw [ddSet_cons]
    by_cases hp : (p.1 == k) = true
    · rw [hp]
      simp only [if_true]
      rw [ddFind_cons]
      show (if (p.1 == k) = true then some g else ddFind (ddSet rest k g) k) = some g
      rw [hp]
      simp
    · have hp' : (p.1 == k) = false := by simpa using hp
      rw [ddFind_cons, hp'] at h
      simp only [Bool.false_eq_true, if_false] at h
      rw [hp']
      simp only [Bool.false_eq_true, if_false]
      rw [ddFind_cons, hp']
      simp only [Bool.false_eq_true, if_false]
      exact ih h

theorem find?_append_none {α : Type} {p : α → Bool} {l1 : List α} (l2 : List α)
    (h : l1.find? p = none) : (l1 ++ l2).find? p = l2.find? p := by
  simp [List.find?_append, h]

theorem find?_name_eq_none (l : List DFile) (fn : String)
    (h : ∀ f ∈ l, f.name ≠ fn) : l.find? (fun f => f.name == fn) = none := by
  apply List.find?_eq_none.2
  intro f hf
  simpa using h f hf

theorem writeFileList_cons (f : DFile) (rest : List DFile) (fn : String) (t : Nat)
    (c : FileContent) :
    writeFileList (f :: rest) fn t c
      = if f.name == fn then ⟨fn, t, c⟩ :: rest else f :: writeFileList rest fn t c := rfl

theorem writeFileList_not_mem (l : List DFile) (fn : String) (t : Nat) (c : FileContent)
    (h : ∀ f ∈ l, f.name ≠ fn) : writeFileList l fn t c = l ++ [⟨fn, t, c⟩] := by
  induction l with
  | nil => rfl
  | cons f rest ih =>
    have hf : (f.name == fn) = false := by simpa using h f (by simp)
    rw [writeFileList_cons, hf]
    simp only [Bool.false_eq_true, if_false, List.cons_append, List.cons.injEq, true_and]
    exact ih (fun x hx => h x (by simp [hx]))

theorem find?_cons_true {α : Type} (p : α → Bool) (a : α) (l : List α)
    (h : p a = true) : (a :: l).find? p = some a := by
  simp [List.find?, h]

theorem find?_cons_false {α : Type} (p : α → Bool) (a : α) (l : List α)
    (h : p a = false) : (a :: l).find? p = l.find? p := by
  simp [List.find?, h]

theorem find?_writeFileList (l : List DFile) (fn : String) (t : Nat) (c : FileContent) :
    (writeFileList l fn t c).find? (fun f => f.name == fn) = some ⟨fn, t, c⟩ := by
  induction l with
  | nil => simp [writeFileList, List.find?]
  | cons f rest ih =>
    rw [writeFileList_cons]
    by_cases hf : (f.name == fn) = true
    · rw [hf]
      simp only [if_true]
      exact find?_cons_true (fun g => g.name == fn) ⟨fn, t, c⟩ rest (by simp)
    · have hf' : (f.name == fn) = false := by simpa using hf
      rw [hf']
      simp only [Bool.false_eq_true, if_false]
      rw [find?_cons_false (fun g => g.name == fn) f (writeFileList rest fn t c) hf']
      exact ih

theorem find?_filter_other (l : List DFile) (a b : String) (hne : a ≠ b) :
    (l.filter (fun f => f.name != b)).find? (fun f => f.name == a)
      = l.find? (fun f => f.name == a) := by
  induction l with
  | nil => rfl
  | cons f rest ih =>
    by_cases hb : f.name = b
    · have h1 : (f.name != b) = false := by simp [hb]
      have h2 : (f.name == a) = false := by
        simp only [beq_eq_false_iff_ne, ne_eq, hb]
        exact fun hc => hne hc.symm
      rw [List.filter_cons, h1]
      simp only [Bool.false_eq_true, if_false]
      rw [find?_cons_false (fun g => g.name == a) f rest h2]
      exact ih
    · have h1 : (f.name != b) = true := by simp [hb]
      rw [List.filter_cons, h1]
      simp only [if_true]
      cases hcase : f.name == a
      · rw [find?_cons_false (fun g => g.name == a) f (rest.filter (fun g => g.name != b)) hcase,
          find?_cons_false (fun g => g.name == a) f rest hcase]
        exact ih
      · rw [find?_cons_true (fun g => g.name == a) f (rest.filter (fun g => g.name != b)) hcase,
          find?_cons_true (fun g => g.name == a) f rest hcase]

/-! ### The shape of the store after a run of appends -/

theorem fnamesFrom_cons (name : String) (k : Nat) (v : PyVal) (rest : List PyVal) :
    fnamesFrom name k (v :: rest) = fnameOf name (k + 1) v :: fnamesFrom name (k + 1) rest := rfl

theorem diskFrom_cons (name : String) (k c : Nat) (v : PyVal) (rest : List PyVal) :
    diskFrom name k c (v :: rest)
      = ⟨fnameOf name (k + 1) v, c, contOf v⟩ :: diskFrom name (k + 1) (c + 1) rest := rfl

theorem fnamesFrom_length (name : String) : ∀ (us : List PyVal) (k : Nat),
    (fnamesFrom name k us).length = us.length := by
  intro us
  induction us with
  | nil => intro k; rfl
  | cons v rest ih =>
    intro k
    rw [fnamesFrom_cons]
    simp [ih (k + 1)]

theorem fnamesFrom_ne_nil (name : String) (us : List PyVal) (k : Nat) (h : us ≠ []) :
    fnamesFrom name k us ≠ [] := by
  cases us with
  | nil => exact absurd rfl h
  | cons v rest => rw [fnamesFrom_cons]; simp

theorem fnamesFrom_append (name : String) : ∀ (us : List PyVal) (k : Nat) (v : PyVal),
    fnamesFrom name k (us ++ [v])
      = fnamesFrom name k us ++ [fnameOf name (k + us.length + 1) v] := by
  intro us
  induction us with
  | nil =>
    intro k v
    rw [List.nil_append, fnamesFrom_cons]
    rfl
  | cons u rest ih =>
    intro k v
    rw [List.cons_append, fnamesFrom_cons, fnamesFrom_cons, ih (k + 1) v]
    have harith : k + 1 + rest.length + 1 = k + (u :: rest).length + 1 := by
      simp only [List.length_cons]
      omega
    rw [harith, List.cons_append]

theorem diskFrom_append (name : String) : ∀ (us : List PyVal) (k c : Nat) (v : PyVal),
    diskFrom name k c (us ++ [v])
      = diskFrom name k c us
        ++ [⟨fnameOf name (k + us.length + 1) v, c + us.length, contOf v⟩] := by
  intro us
  induction us with
  | nil =>
    intro k c v
    rw [List.nil_append, diskFrom_cons]
    rfl
  | cons u rest ih =>
    intro k c v
    rw [List.cons_append, diskFrom_cons, diskFrom_cons, ih (k + 1) (c + 1) v]
    have h1 : k + 1 + rest.length + 1 = k + (u :: rest).length + 1 := by
      simp only [List.length_cons]
      omega
    have h2 : c + 1 + rest.length = c + (u :: rest).length := by
      simp only [List.length_cons]
      omega
    rw [h1, h2, List.cons_append]

theorem fnamesFrom_getLast (name : String) : ∀ (us : List PyVal) (k : Nat) (h : us ≠ []),
    (fnamesFrom name k us).getLast?
      = some (fnameOf name (k + us.length) (us.getLast h)) := by
  intro us
  induction us with
  | nil => intro k h; exact absurd rfl h
  | cons v rest ih =>
    intro k h
    cases rest with
    | nil =>
      rw [fnamesFrom_cons]
      show [fnameOf name (k + 1) v].getLast? = _
      rw [List.getLast?_singleton, List.getLast_singleton]
      rfl
    | cons w t =>
      rw [fnamesFrom_cons, fnamesFrom_cons, List.getLast?_cons_cons, ← fnamesFrom_cons]
      rw [ih (k + 1) (List.cons_ne_nil w t)]
      rw [List.getLast_cons (List.cons_ne_nil w t)]
      have harith : k + 1 + (w :: t).length = k + (v :: w :: t).length := by
        simp only [List.length_cons]
        omega
      rw [harith]

theorem diskFrom_name_mem (name : String) : ∀ (us : List PyVal) (k c : Nat) (f : DFile),
    f ∈ diskFrom name k c us
      → ∃ i v, k < i ∧ i ≤ k + us.length ∧ f.name = fnameOf name i v := by
  intro us
  induction us with
  | nil =>
    intro k c f hf
    simp [diskFrom] at hf
  | cons v rest ih =>
    intro k c f hf
    rw [diskFrom_cons] at hf
    rcases List.mem_cons.1 hf with h1 | h1
    · refine ⟨k + 1, v, by omega, ?_, by rw [h1]⟩
      simp only [List.length_cons]
      omega
    · obtain ⟨i, w, hi1, hi2, hi3⟩ := ih (k + 1) (c + 1) f h1
      refine ⟨i, w, by omega, ?_, hi3⟩
      simp only [List.length_cons]
      omega

theorem versionsOf_fnamesFrom (name : String) (hname : ∀ c ∈ name.data, c ≠ '.') :
    ∀ (us : List PyVal) (k : Nat),
      versionsOf (fnamesFrom name k us) = List.range' (k + 1) us.length := by
  intro us
  induction us with
  | nil => intro k; rfl
  | cons v rest ih =>
    intro k
    rw [fnamesFrom_cons]
    show ((scanMarkers (fnameOf name (k + 1) v).data).getLastD 0)
        :: versionsOf (fnamesFrom name (k + 1) rest) = _
    rw [scanMarkers_fnameOf name hname (k + 1) v, ih (k + 1)]
    show (k + 1) :: List.range' (k + 1 + 1) rest.length = _
    simp [List.range', List.length_cons]

theorem find?_diskFrom_getLast (name : String) :
    ∀ (us : List PyVal) (k c : Nat) (h : us ≠ []),
      (diskFrom name k c us).find?
          (fun f => f.name == fnameOf name (k + us.length) (us.getLast h))
        = some ⟨fnameOf name (k + us.length) (us.getLast h), c + us.length - 1,
            contOf (us.getLast h)⟩ := by
  intro us
  induction us with
  | nil => intro k c h; exact absurd rfl h
  | cons v rest ih =>
    intro k c h
    cases rest with
    | nil =>
      rw [diskFrom_cons]
      rw [List.getLast_singleton v h]
      exact find?_cons_true (fun f => f.name == fnameOf name (k + ([v] : List PyVal).length) v)
        ⟨fnameOf name (k + 1) v, c, contOf v⟩ (diskFrom name (k + 1) (c + 1) []) (by simp)
    | cons w t =>
      rw [diskFrom_cons]
      have hver : k + 1 < k + (v :: w :: t).length := by
        simp only [List.length_cons]
        omega
      have hne : (⟨fnameOf name (k + 1) v, c, contOf v⟩ : DFile).name
          ≠ fnameOf name (k + (v :: w :: t).length) ((v :: w :: t).getLast h) := by
        intro hc
        have := fnameOf_inj_version name _ _ _ _ hc
        omega
      rw [find?_cons_false _ _ _ (by simpa using hne)]
      have hlast : (v :: w :: t).getLast h = (w :: t).getLast (List.cons_ne_nil w t) :=
        List.getLast_cons (List.cons_ne_nil w t)
      have harith : k + (v :: w :: t).length = k + 1 + (w :: t).length := by
        simp only [List.length_cons]
        omega
      have harith2 : c + (v :: w :: t).length - 1 = c + 1 + (w :: t).length - 1 := by
        simp only [List.length_cons]
        omega
      rw [hlast, harith, harith2]
      exact ih (k + 1) (c + 1) (List.cons_ne_nil w t)

/-! ### Executing one append and a run of appends -/

theorem xState_files (st0 : SaverState) (name : String) (us : List PyVal) :
    (xState st0 name us).files = xFiles st0.files name us := rfl

theorem xState_disk (st0 : SaverState) (name : String) (us : List PyVal) :
    (xState st0 name us).disk = st0.disk ++ diskFrom name 0 st0.clock us := rfl

theorem xState_clock (st0 : SaverState) (name : String) (us : List PyVal) :
    (xState st0 name us).clock = st0.clock + us.length := rfl

theorem xState_dataset (st0 : SaverState) (name : String) (us : List PyVal) :
    (xState st0 name us).dataset = st0.dataset := rfl

theorem xFiles_nil (files0 : Files) (name : String) : xFiles files0 name [] = files0 := rfl

theorem xFiles_cons (files0 : Files) (name : String) (u : PyVal) (rest : List PyVal) :
    xFiles files0 name (u :: rest) = files0 ++ [(name, fnamesFrom name 0 (u :: rest))] := rfl

theorem xFiles_append_singleton (files0 : Files) (name : String) (us : List PyVal) (v : PyVal) :
    xFiles files0 name (us ++ [v]) = files0 ++ [(name, fnamesFrom name 0 (us ++ [v]))] := by
  cases us with
  | nil => rfl
  | cons u rest => rfl

theorem callNamedLoop_cons (st : SaverState) (k : String) (v : PyVal)
    (rest : List (String × PyVal)) :
    callNamedLoop st ((k, v) :: rest)
      = match getFileIndex st.files k with
        | .error e => .error e
        | .ok (n, files1) =>
          let num := n + 1
          let st1 : SaverState := { st with files := files1 }
          let p := saveData st1 v (k ++ ".@" ++ natStr num)
          let q := ddAccess p.2.files k
          let st3 : SaverState := { p.2 with files := ddSet q.2 k (q.1 ++ [p.1]) }
          callNamedLoop st3 rest := rfl

theorem saveData_eq (st : SaverState) (v : PyVal) (filename : String) :
    saveData st v filename
      = (filename ++ extOf v,
         { st with disk := writeFileList st.disk (filename ++ extOf v) st.clock (contOf v),
                   clock := st.clock + 1 }) := by
  cases v <;> rfl

theorem getFileIndex_eq_missing {files : Files} {fn : String} (h : ddFind files fn = none) :
    getFileIndex files fn = .ok (0, files ++ [(fn, [])]) := by
  simp only [getFileIndex, ddAccess_missing h]
  rfl

theorem getFileIndex_eq_found {files : Files} {fn : String} {g : List String}
    (hfind : ddFind files fn = some g) {last : String} (hlast : g.getLast? = some last)
    {n : Nat} (hscan : (scanMarkers last.data).getLast? = some n) :
    getFileIndex files fn = .ok (n, files) := by
  simp only [getFileIndex, ddAccess_found hfind, hlast, hscan]

theorem callNamedLoop_nil (st : SaverState) : callNamedLoop st [] = .ok st := rfl

theorem saverCall_xStep (st0 : SaverState) (name : String)
    (hname : ∀ c ∈ name.data, c ≠ '.')
    (hmiss : ddFind st0.files name = none)
    (hdisk : ∀ f ∈ st0.disk, ∀ i w, f.name ≠ fnameOf name i w)
    (us : List PyVal) (v : PyVal) :
    saverCall (xState st0 name us) [] [(name, v)] = .ok (xState st0 name (us ++ [v])) := by
  cases us with
  | nil =>
    show callNamedLoop (xState st0 name []) [(name, v)] = _
    rw [callNamedLoop_cons]
    rw [xState_files, xFiles_nil, getFileIndex_eq_missing hmiss]
    simp only [saveData_eq]
    rw [callNamedLoop_nil]
    rw [ddAccess_found (ddFind_append_singleton ([] : List String) hmiss)]
    rw [ddSet_append_singleton ([] : List String)
      ([] ++ [name ++ ".@" ++ natStr (0 + 1) ++ extOf v]) hmiss]
    rw [xState_disk, xState_clock]
    have hfresh : ∀ f ∈ st0.disk ++ diskFrom name 0 st0.clock [],
        f.name ≠ name ++ ".@" ++ natStr (0 + 1) ++ extOf v := by
      intro f hf
      rcases List.mem_append.1 hf with h1 | h1
      · exact hdisk f h1 (0 + 1) v
      · simp [diskFrom] at h1
    rw [writeFileList_not_mem _ _ _ _ hfresh]
    simp [xState, xFiles, fnamesFrom, diskFrom]
    rfl
  | cons u rest =>
    have hg : ddFind (xState st0 name (u :: rest)).files name
        = some (fnamesFrom name 0 (u :: rest)) := by
      rw [xState_files, xFiles_cons]
      exact ddFind_append_singleton _ hmiss
    have hlast := fnamesFrom_getLast name (u :: rest) 0 (List.cons_ne_nil u rest)
    have hscan : (scanMarkers (fnameOf name (0 + (u :: rest).length)
        ((u :: rest).getLast (List.cons_ne_nil u rest))).data).getLast?
        = some (0 + (u :: rest).length) := by
      rw [scanMarkers_fnameOf name hname]
      rfl
    have hgfi : getFileIndex (xState st0 name (u :: rest)).files name
        = .ok (0 + (u :: rest).length, (xState st0 name (u :: rest)).files) :=
      getFileIndex_eq_found hg hlast hscan
    show callNamedLoop (xState st0 name (u :: rest)) [(name, v)] = _
    rw [callNamedLoop_cons, hgfi]
    simp only [saveData_eq]
    rw [callNamedLoop_nil]
    rw [ddAccess_found hg]
    rw [xState_files, xFiles_cons]
    rw [ddSet_append_singleton (fnamesFrom name 0 (u :: rest))
      (fnamesFrom name 0 (u :: rest)
        ++ [name ++ ".@" ++ natStr (0 + (u :: rest).length + 1) ++ extOf v]) hmiss]
    rw [xState_disk, xState_clock]
    have hfresh : ∀ f ∈ st0.disk ++ diskFrom name 0 st0.clock (u :: rest),
        f.name ≠ name ++ ".@" ++ natStr (0 + (u :: rest).length + 1) ++ extOf v := by
      intro f hf
      rcases List.mem_append.1 hf with h1 | h1
      · exact hdisk f h1 (0 + (u :: rest).length + 1) v
      · obtain ⟨i, w, hi1, hi2, hi3⟩ := diskFrom_name_mem name (u :: rest) 0 st0.clock f h1
        rw [hi3]
        intro hc
        have := fnameOf_inj_version name _ _ _ _ hc
        omega
    rw [writeFileList_not_mem _ _ _ _ hfresh]
    rw [xState_dataset]
    show _ = Except.ok (xState st0 name ((u :: rest) ++ [v]))
    have hrhs : xState st0 name ((u :: rest) ++ [v])
        = { dataset := st0.dataset
          , files := st0.files ++ [(name, fnamesFrom name 0 (u :: rest)
              ++ [fnameOf name (0 + (u :: rest).length + 1) v])]
          , disk := st0.disk ++ (diskFrom name 0 st0.clock (u :: rest)
              ++ [⟨fnameOf name (0 + (u :: rest).length + 1) v,
                   st0.clock + (u :: rest).length, contOf v⟩])
          , clock := st0.clock + ((u :: rest) ++ [v]).length } := by
      simp only [xState, xFiles_append_singleton, fnamesFrom_append, diskFrom_append]
    rw [hrhs]
    simp [fnameOf, List.append_assoc, List.length_append, List.length_cons, Nat.add_assoc]

theorem appendSeqNamed_nil (st : SaverState) (name : String) :
    appendSeqNamed st name [] = .ok st := rfl

theorem appendSeqNamed_cons (st : SaverState) (name : String) (v : PyVal) (rest : List PyVal) :
    appendSeqNamed st name (v :: rest)
      = match saverCall st [] [(name, v)] with
        | .error e => .error e
        | .ok st1 => appendSeqNamed st1 name rest := rfl

theorem xState_nil_eq (st0 : SaverState) (name : String) : xState st0 name [] = st0 := by
  cases st0 with
  | mk d f dk c => simp [xState, xFiles, diskFrom]

theorem appendSeqNamed_xState (st0 : SaverState) (name : String)
    (hname : ∀ c ∈ name.data, c ≠ '.')
    (hmiss : ddFind st0.files name = none)
    (hdisk : ∀ f ∈ st0.disk, ∀ i w, f.name ≠ fnameOf name i w) :
    ∀ (rest us : List PyVal),
      appendSeqNamed (xState st0 name us) name rest = .ok (xState st0 name (us ++ rest)) := by
  intro rest
  induction rest with
  | nil =>
    intro us
    rw [appendSeqNamed_nil, List.append_nil]
  | cons v vs ih =>
    intro us
    rw [appendSeqNamed_cons, saverCall_xStep st0 name hname hmiss hdisk us v]
    show appendSeqNamed (xState st0 name (us ++ [v])) name vs = _
    rw [ih (us ++ [v])]
    rw [List.append_assoc]
    rfl

theorem loadData_fnameOf (disk : List DFile) (name : String) (i : Nat) (w : PyVal) (t : Nat)
    (hfind : disk.find? (fun f => f.name == fnameOf name i w)
      = some ⟨fnameOf name i w, t, contOf w⟩) :
    loadData disk (fnameOf name i w) = .ok w := by
  unfold loadData
  rw [hfind]
  cases w with
  | df d =>
    rw [show fnameOf name i (.df d) = (name ++ ".@" ++ natStr i) ++ ".pkl.pd_" from rfl]
    rw [pathSuffix_pd]
    rfl
  | blob n =>
    rw [show fnameOf name i (.blob n) = (name ++ ".@" ++ natStr i) ++ ".pkl.z" from rfl]
    rw [pathSuffix_z]
    rfl
  | mapping m =>
    rw [show fnameOf name i (.mapping m) = (name ++ ".@" ++ natStr i) ++ ".pkl.z" from rfl]
    rw [pathSuffix_z]
    rfl

theorem lastOp_some (st : SaverState) (nm : String) :
    lastOp st (some nm)
      = (match (ddAccess st.files nm).1.getLast? with
         | none => (.error .indexError, { st with files := (ddAccess st.files nm).2 })
         | some fn => (loadData st.disk fn, { st with files := (ddAccess st.files nm).2 })) := rfl

theorem ddFind_xState_cons (st0 : SaverState) (name : String)
    (hmiss : ddFind st0.files name = none) (vs : List PyVal) (hvs : vs ≠ []) :
    ddFind (xState st0 name vs).files name = some (fnamesFrom name 0 vs) := by
  cases vs with
  | nil => exact absurd rfl hvs
  | cons u rest =>
    rw [xState_files, xFiles_cons]
    exact ddFind_append_singleton _ hmiss

theorem lastOp_xState (st0 : SaverState) (name : String)
    (hmiss : ddFind st0.files name = none)
    (hdisk : ∀ f ∈ st0.disk, ∀ i w, f.name ≠ fnameOf name i w)
    (vs : List PyVal) (hvs : vs ≠ []) :
    (lastOp (xState st0 name vs) (some name)).1 = .ok (vs.getLast hvs) := by
  have hg := ddFind_xState_cons st0 name hmiss vs hvs
  rw [lastOp_some, ddAccess_found hg]
  rw [show ((fnamesFrom name 0 vs, (xState st0 name vs).files) :
      List String × Files).1 = fnamesFrom name 0 vs from rfl]
  rw [fnamesFrom_getLast name vs 0 hvs]
  have hfind : (xState st0 name vs).disk.find?
      (fun f => f.name == fnameOf name (0 + vs.length) (vs.getLast hvs))
      = some ⟨fnameOf name (0 + vs.length) (vs.getLast hvs),
          st0.clock + vs.length - 1, contOf (vs.getLast hvs)⟩ := by
    rw [xState_disk]
    rw [find?_append_none _ (find?_name_eq_none _ _ (fun f hf => hdisk f hf _ _))]
    exact find?_diskFrom_getLast name vs 0 st0.clock hvs
  show loadData (xState st0 name vs).disk (fnameOf name (0 + vs.length) (vs.getLast hvs)) = _
  exact loadData_fnameOf _ name _ _ _ hfind

theorem callUnnamedLoop_cons (st : SaverState) (num : Nat) (d : PyVal) (rest : List PyVal) :
    callUnnamedLoop st num (d :: rest)
      = match (if num == 0 then getFileIndex st.files "unnamed" else .ok (num, st.files)) with
        | .error e => .error e
        | .ok (num1, files1) =>
          let num2 := num1 + 1
          let st1 : SaverState := { st with files := files1 }
          let p := saveData st1 d ("unnamed.@" ++ natStr num2)
          let q := ddAccess p.2.files "unnamed"
          let st3 : SaverState := { p.2 with files := ddSet q.2 "unnamed" (q.1 ++ [p.1]) }
          callUnnamedLoop st3 num2 rest := rfl

theorem saverCall_single_pos_eq (st : SaverState) (v : PyVal) :
    saverCall st [v] [] = saverCall st [] [("unnamed", v)] := by
  show (match callUnnamedLoop st 0 [v] with
        | .error e => .error e
        | .ok (st1, _) => callNamedLoop st1 []) = callNamedLoop st [("unnamed", v)]
  rw [callUnnamedLoop_cons, callNamedLoop_cons]
  cases hgfi : getFileIndex st.files "unnamed" with
  | error e =>
    simp
  | ok p =>
    simp [show ("unnamed" ++ ".@" : String) = "unnamed.@" from rfl]
    rfl

/-! ### The claims -/

/-- C1: on any `Saver` instance whose in-memory index has no group for the
(dot-free) logical name and whose store directory holds no file named like
one of its generated files, `N` successive appends
`save(v_1), ..., save(v_N)` under that name leave an in-memory history that
is exactly the list of generated file names `<name>.@<k>.<tag>` for
`k = 1..N`, so it has length `N`; `last(name)` then returns the `N`-th
appended value, and the version numbers embedded in the generated file
names (extracted by the same regex the code uses) are `1..N` in order.  The
final conjunct shows the unnamed positional form `save(v)` is the same
operation as the keyword form under `"unnamed"`. -/
theorem saver_append_version_monotonic (st0 : SaverState) (name : String)
    (hname : ∀ c ∈ name.data, c ≠ '.')
    (hmiss : ddFind st0.files name = none)
    (hdisk : ∀ f ∈ st0.disk, ∀ i w, f.name ≠ fnameOf name i w)
    (vs : List PyVal) (hvs : vs ≠ []) :
    ∃ stN, appendSeqNamed st0 name vs = .ok stN ∧
      ddFind stN.files name = some (fnamesFrom name 0 vs) ∧
      (fnamesFrom name 0 vs).length = vs.length ∧
      (lastOp stN (some name)).1 = .ok (vs.getLast hvs) ∧
      versionsOf (fnamesFrom name 0 vs) = List.range' 1 vs.length ∧
      (∀ st v, saverCall st [v] [] = saverCall st [] [("unnamed", v)]) := by
  have happ := appendSeqNamed_xState st0 name hname hmiss hdisk vs []
  rw [xState_nil_eq, List.nil_append] at happ
  refine ⟨xState st0 name vs, happ, ?_, ?_, ?_, ?_, ?_⟩
  · exact ddFind_xState_cons _ name hmiss vs hvs
  · exact fnamesFrom_length name vs 0
  · exact lastOp_xState _ name hmiss hdisk vs hvs
  · have := versionsOf_fnamesFrom name hname vs 0
    simpa using this
  · exact fun st v => saverCall_single_pos_eq st v

/-- Witness for C1: a `Saver` opened on an empty store, `name = "x"`, two
appended values. -/
theorem saver_append_version_monotonic_witness :
    ∃ stN, appendSeqNamed (saverInit "ds" (some []) 0) "x" [PyVal.blob 1, PyVal.blob 2]
        = .ok stN ∧
      ddFind stN.files "x" = some (fnamesFrom "x" 0 [PyVal.blob 1, PyVal.blob 2]) ∧
      (fnamesFrom "x" 0 [PyVal.blob 1, PyVal.blob 2]).length = 2 ∧
      (lastOp stN (some "x")).1 = .ok (PyVal.blob 2) ∧
      versionsOf (fnamesFrom "x" 0 [PyVal.blob 1, PyVal.blob 2]) = List.range' 1 2 ∧
      (∀ st v, saverCall st [v] [] = saverCall st [] [("unnamed", v)]) :=
  saver_append_version_monotonic (saverInit "ds" (some []) 0) "x" (by decide) rfl
    (by simp [saverInit]) [PyVal.blob 1, PyVal.blob 2] (List.cons_ne_nil _ _)

/-! ### Grouping lemmas for the index rebuild -/

theorem ddFind_append_singleton_other {fs : Files} {k s : String} (g : List String)
    (hne : k ≠ s) : ddFind (fs ++ [(s, g)]) k = ddFind fs k := by
  cases hx : fs.find? (fun p => p.1 == k) with
  | some p => simp [ddFind, List.find?_append, hx]
  | none =>
    have hs : (s == k) = false := by
      simp only [beq_eq_false_iff_ne, ne_eq]
      exact fun hc => hne hc.symm
    simp [ddFind, List.find?_append, hx, List.find?, hs]

theorem indexGroup_indexStep (acc : Files) (f : DFile) (k : String) :
    indexGroup (indexStep acc f) k
      = if k = stemOf f.name then indexGroup acc k ++ [f.name] else indexGroup acc k := by
  cases hfind : ddFind acc (stemOf f.name) with
  | some g =>
    show indexGroup (ddSet (ddAccess acc (stemOf f.name)).2 (stemOf f.name)
        ((ddAccess acc (stemOf f.name)).1 ++ [f.name])) k = _
    rw [ddAccess_found hfind]
    by_cases hk : k = stemOf f.name
    · rw [if_pos hk, hk]
      unfold indexGroup
      rw [ddFind_ddSet_self (g ++ [f.name]) hfind, hfind]
      rfl
    · rw [if_neg hk]
      unfold indexGroup
      rw [ddFind_ddSet_other _ hk]
  | none =>
    show indexGroup (ddSet (ddAccess acc (stemOf f.name)).2 (stemOf f.name)
        ((ddAccess acc (stemOf f.name)).1 ++ [f.name])) k = _
    rw [ddAccess_missing hfind]
    rw [show (([], acc ++ [(stemOf f.name, [])]) : List String × Files).2
        = acc ++ [(stemOf f.name, [])] from rfl]
    rw [show (([], acc ++ [(stemOf f.name, [])]) : List String × Files).1 = [] from rfl]
    rw [ddSet_append_singleton ([] : List String) ([] ++ [f.name]) hfind]
    by_cases hk : k = stemOf f.name
    · rw [if_pos hk, hk]
      unfold indexGroup
      rw [ddFind_append_singleton ([] ++ [f.name]) hfind, hfind]
      rfl
    · rw [if_neg hk]
      unfold indexGroup
      rw [ddFind_append_singleton_other ([] ++ [f.name]) hk]

theorem indexGroup_foldl (l : List DFile) : ∀ (acc : Files) (k : String),
    indexGroup (l.foldl indexStep acc) k
      = indexGroup acc k ++ (l.filter (fun f => stemOf f.name == k)).map (fun f => f.name) := by
  induction l with
  | nil =>
    intro acc k
    simp
  | cons f rest ih =>
    intro acc k
    rw [List.foldl_cons, ih (indexStep acc f) k, indexGroup_indexStep, List.filter_cons]
    by_cases hk : k = stemOf f.name
    · have hb : (stemOf f.name == k) = true := by simp [hk]
      rw [if_pos hk, hb]
      simp [List.append_assoc]
    · have hb : (stemOf f.name == k) = false := by
        simp only [beq_eq_false_iff_ne, ne_eq]
        exact fun hc => hk hc.symm
      rw [if_neg hk, hb]
      simp

theorem ddFind_map_snd (idx : Files) (h : List String → List String) (k : String) :
    ddFind (idx.map (fun p => (p.1, h p.2))) k = (ddFind idx k).map h := by
  induction idx with
  | nil => rfl
  | cons p rest ih =>
    rw [List.map_cons, ddFind_cons]
    show (if (p.1 == k) = true then _ else _) = _
    rw [ddFind_cons]
    by_cases hp : (p.1 == k) = true
    · rw [hp]
      simp
    · have hp' : (p.1 == k) = false := by simpa using hp
      rw [hp']
      simp only [Bool.false_eq_true, if_false]
      exact ih

theorem mem_insertByMtime (disk : List DFile) (x y : String) (l : List String) :
    y ∈ insertByMtime disk x l ↔ y = x ∨ y ∈ l := by
  induction l with
  | nil => simp [insertByMtime]
  | cons z rest ih =>
    unfold insertByMtime
    by_cases hc : mtimeOf disk x ≤ mtimeOf disk z
    · rw [if_pos hc]
      simp
    · rw [if_neg hc]
      simp [ih]
      tauto

theorem mem_sortByMtime (disk : List DFile) (l : List String) (y : String) :
    y ∈ sortByMtime disk l ↔ y ∈ l := by
  induction l with
  | nil => simp [sortByMtime]
  | cons x rest ih =>
    unfold sortByMtime
    rw [mem_insertByMtime]
    simp [ih]

/-- C2: the claim says every URL whose scheme is not `http`/`https` fails
with the unsupported-scheme ValueError before any network I/O.  The code
instead tests `'http' in scheme` (substring containment), so the scheme
`shttp` — which is neither `http` nor `https` — proceeds to the HTTP
request, contradicting the claim and the code's own error message; `ftp`
is rejected as the claim describes. -/
theorem fetch_scheme_substring_bug :
    urlScheme "shttp://host/file" = "shttp" ∧
    ("shttp" ≠ "http" ∧ "shttp" ≠ "https") ∧
    fetchData "shttp://host/file" = .httpRequest "shttp://host/file" ∧
    fetchData "ftp://host/file" = .schemeError "ftp" := by
  refine ⟨by decide, by decide, by decide, by decide⟩

/-- C3 counterexample: the store file `a.@1.pkl.z` is grouped by
`_make_file_index` under the logical name `a`, not under `a.@1`, the name
obtained by stripping exactly the last two dot-separated segments as the
claim states; no group exists under `a.@1` at all. -/
theorem index_stem_counterexample :
    makeFileIndex [⟨"a.@1.pkl.z", 0, .jlBytes (.blob 0)⟩] = [("a", ["a.@1.pkl.z"])] ∧
    stripLastTwoSegments "a.@1.pkl.z" = "a.@1" ∧
    ddFind (makeFileIndex [⟨"a.@1.pkl.z", 0, .jlBytes (.blob 0)⟩])
      (stripLastTwoSegments "a.@1.pkl.z") = none := by
  refine ⟨by decide, by decide, by decide⟩

/-- C3 amended: every file in the store directory whose name matches
`*.pkl.*` is grouped by the index rebuild under the logical name obtained
by stripping the last THREE dot-separated segments of its file name
(`'.'.join(name.split('.')[:-3])` — the version tag plus the two segments
of the encoding tag `pkl.z` / `pkl.pd_`). -/
theorem index_stem_strips_three (disk : List DFile) (f : DFile)
    (hf : f ∈ disk) (hm : matchesPkl f.name = true) :
    f.name ∈ indexGroup (makeFileIndex disk) (stemOf f.name) := by
  have hfs : f ∈ disk.filter (fun g => matchesPkl g.name) :=
    List.mem_filter.2 ⟨hf, hm⟩
  have hmem : f.name ∈ indexGroup
      ((disk.filter (fun g => matchesPkl g.name)).foldl indexStep []) (stemOf f.name) := by
    rw [indexGroup_foldl]
    refine List.mem_append.2 (Or.inr ?_)
    refine List.mem_map.2 ⟨f, ?_, rfl⟩
    exact List.mem_filter.2 ⟨hfs, by simp⟩
  show f.name ∈ indexGroup
    (((disk.filter (fun g => matchesPkl g.name)).foldl indexStep []).map
      (fun p => (p.1, sortByMtime disk p.2))) (stemOf f.name)
  unfold indexGroup at hmem ⊢
  rw [ddFind_map_snd]
  cases hfind : ddFind ((disk.filter (fun g => matchesPkl g.name)).foldl indexStep [])
      (stemOf f.name) with
  | none =>
    rw [hfind] at hmem
    simp at hmem
  | some g =>
    rw [hfind] at hmem
    simp only [Option.getD_some] at hmem
    show f.name ∈ sortByMtime disk g
    exact (mem_sortByMtime disk g f.name).2 hmem

/-- Witness for C3 amended at a one-file store. -/
theorem index_stem_strips_three_witness :
    ("a.@1.pkl.z" : String)
      ∈ indexGroup (makeFileIndex [⟨"a.@1.pkl.z", 0, .jlBytes (.blob 0)⟩]) (stemOf "a.@1.pkl.z") :=
  index_stem_strips_three [⟨"a.@1.pkl.z", 0, .jlBytes (.blob 0)⟩]
    ⟨"a.@1.pkl.z", 0, .jlBytes (.blob 0)⟩ (by simp) (by decide)

/-- C4: opening a `Saver` on a nonexistent store directory (which
`__init__` creates before rebuilding the index) or on an existing empty
directory yields an empty in-memory index, without failing. -/
theorem saver_init_empty_index (ds : String) (c : Nat) :
    (saverInit ds none c).files = [] ∧ (saverInit ds (some []) c).files = [] :=
  ⟨rfl, rfl⟩

theorem lastOp_none (st : SaverState) :
    lastOp st none
      = (match (ddAccess st.files "unnamed").1.getLast? with
         | none => (.error .indexError, { st with files := (ddAccess st.files "unnamed").2 })
         | some fn => (loadData st.disk fn, { st with files := (ddAccess st.files "unnamed").2 })) := rfl

/-- C8: `last(name)` on a logical name with no stored artifacts (absent
from the index or present with an empty group), including the default
`"unnamed"` when the argument is omitted, fails with an IndexError
(`self._files[name][-1]` on an empty list). -/
theorem last_missing_index_error (st : SaverState) (dname : Option String)
    (h : ddFind st.files (dname.getD "unnamed") = none
       ∨ ddFind st.files (dname.getD "unnamed") = some []) :
    (lastOp st dname).1 = .error .indexError := by
  cases dname with
  | none =>
    rcases h with h | h
    · have h' : ddFind st.files "unnamed" = none := h
      rw [lastOp_none, ddAccess_missing h']
      rfl
    · have h' : ddFind st.files "unnamed" = some [] := h
      rw [lastOp_none, ddAccess_found h']
      rfl
  | some s =>
    rcases h with h | h
    · have h' : ddFind st.files s = none := h
      rw [lastOp_some, ddAccess_missing h']
      rfl
    · have h' : ddFind st.files s = some [] := h
      rw [lastOp_some, ddAccess_found h']
      rfl

/-- Witness for C8: empty store, omitted name. -/
theorem last_missing_index_error_witness :
    (lastOp ⟨"ds", [], [], 0⟩ none).1 = .error .indexError :=
  last_missing_index_error ⟨"ds", [], [], 0⟩ none (Or.inl rfl)

/-- C9: decode after encode is the identity: `_save_data` writes a
DataFrame to `<fname>.pkl.pd_` and any other value to `<fname>.pkl.z`, and
`_load_data` picks the decoder matching the file's suffix, so reading back
the file just written returns a value structurally equal to the input, in
both the tabular and the opaque case. -/
theorem codec_round_trip (st : SaverState) (v : PyVal) (fname : String) :
    loadData (saveData st v fname).2.disk (saveData st v fname).1 = .ok v := by
  cases v with
  | df d =>
    rw [saveData_eq]
    simp only [extOf, contOf]
    unfold loadData
    rw [find?_writeFileList]
    rw [pathSuffix_pd]
    rfl
  | blob n =>
    rw [saveData_eq]
    simp only [extOf, contOf]
    unfold loadData
    rw [find?_writeFileList]
    rw [pathSuffix_z]
    rfl
  | mapping m =>
    rw [saveData_eq]
    simp only [extOf, contOf]
    unfold loadData
    rw [find?_writeFileList]
    rw [pathSuffix_z]
    rfl

/-! ### Dump and the poisoned index -/

theorem dumpCollect_cons (disk : List DFile) (k : String) (g : List String) (rest : Files) :
    dumpCollect disk ((k, g) :: rest)
      = match g.getLast? with
        | none => .error .indexError
        | some fn =>
          match loadData disk fn with
          | .error e => .error e
          | .ok v =>
            match dumpCollect disk rest with
            | .error e => .error e
            | .ok m => .ok ((k, v) :: m) := rfl

theorem dumpCollect_cons_ok {disk : List DFile} {k : String} {g : List String} {rest : Files}
    {fn : String} {v : PyVal} {m : List (String × PyVal)}
    (hg : g.getLast? = some fn) (hv : loadData disk fn = .ok v)
    (hm : dumpCollect disk rest = .ok m) :
    dumpCollect disk ((k, g) :: rest) = .ok ((k, v) :: m) := by
  rw [dumpCollect_cons, hg]
  show (match loadData disk fn with
        | .error e => (.error e : Except PyErr (List (String × PyVal)))
        | .ok v => match dumpCollect disk rest with
          | .error e => .error e
          | .ok m => .ok ((k, v) :: m)) = _
  rw [hv]
  show (match dumpCollect disk rest with
        | .error e => (.error e : Except PyErr (List (String × PyVal)))
        | .ok m2 => .ok ((k, v) :: m2)) = _
  rw [hm]

/-- C6: on a store whose index holds exactly the names `a` and `b`, each
with at least one artifact, `dump(tmp, rename="snap", with_datetime=False)`
writes exactly one file, at `tmp/snap.pkl.z`, whose content is the joblib
serialization of the mapping `{a: latest-of-a, b: latest-of-b}` (latest =
last entry of the mtime-sorted group), and returns that path. -/
theorem dump_exports_latest (st : SaverState) (tmp now : String)
    (ga gb : List String) (va vb : PyVal)
    (hf : st.files = [("a", ga), ("b", gb)])
    (ha : ga ≠ []) (hb : gb ≠ [])
    (hla : loadData st.disk (ga.getLast ha) = .ok va)
    (hlb : loadData st.disk (gb.getLast hb) = .ok vb) :
    dump st tmp (some "snap") false now
      = .ok (tmp ++ "/" ++ "snap.pkl.z", .jlBytes (.mapping [("a", va), ("b", vb)])) := by
  have hca : dumpCollect st.disk [("a", ga), ("b", gb)] = .ok [("a", va), ("b", vb)] :=
    dumpCollect_cons_ok (List.getLast?_eq_getLast ga ha) hla
      (dumpCollect_cons_ok (List.getLast?_eq_getLast gb hb) hlb rfl)
  unfold dump
  rw [hf, hca]
  rfl

/-- Witness for C6: a two-name store with one artifact each. -/
theorem dump_exports_latest_witness :
    dump (SaverState.mk "ds" [("a", ["a.@1.pkl.z"]), ("b", ["b.@1.pkl.z"])]
          [DFile.mk "a.@1.pkl.z" 0 (FileContent.jlBytes (PyVal.blob 1)),
           DFile.mk "b.@1.pkl.z" 1 (FileContent.jlBytes (PyVal.blob 2))] 2)
        "tmp" (some "snap") false "now"
      = .ok ("tmp" ++ "/" ++ "snap.pkl.z",
          FileContent.jlBytes (PyVal.mapping [("a", PyVal.blob 1), ("b", PyVal.blob 2)])) :=
  dump_exports_latest _ "tmp" "now" ["a.@1.pkl.z"] ["b.@1.pkl.z"] (PyVal.blob 1) (PyVal.blob 2)
    rfl (List.cons_ne_nil _ _) (List.cons_ne_nil _ _) rfl rfl

theorem lastOp_missing_state {st : SaverState} {name : String}
    (hmiss : ddFind st.files name = none) :
    lastOp st (some name)
      = (.error .indexError, { st with files := st.files ++ [(name, [])] }) := by
  rw [lastOp_some, ddAccess_missing hmiss]
  rfl

theorem pyIndex_zero_len (i : Int) : pyIndex 0 i = none := by
  unfold pyIndex
  rw [if_neg]
  rintro ⟨h1, h2⟩
  omega

theorem getItemNamedIdx_missing {st : SaverState} {name : String} (idx : Int)
    (hmiss : ddFind st.files name = none) :
    getItemNamedIdx st name idx
      = (.error .indexError, { st with files := st.files ++ [(name, [])] }) := by
  unfold getItemNamedIdx
  rw [ddAccess_missing hmiss]
  show (match pyIndex ([] : List String).length idx with
        | none => ((.error .indexError : Except PyErr PyVal),
            { st with files := st.files ++ [(name, [])] })
        | some j => (loadData st.disk (([] : List String).getD j ""),
            { st with files := st.files ++ [(name, [])] })) = _
  rw [show pyIndex ([] : List String).length idx = none from pyIndex_zero_len idx]

theorem dumpCollect_append_empty_group {disk : List DFile} {l1 : Files}
    {m : List (String × PyVal)} (hok : dumpCollect disk l1 = .ok m) (name : String) :
    dumpCollect disk (l1 ++ [(name, [])]) = .error .indexError := by
  induction l1 generalizing m with
  | nil => rfl
  | cons p rest ih =>
    obtain ⟨k, g⟩ := p
    rw [dumpCollect_cons] at hok
    rw [List.cons_append, dumpCollect_cons]
    cases hg : g.getLast? with
    | none =>
      rw [hg] at hok
    | some fn =>
      rw [hg] at hok
      replace hok : (match loadData disk fn with
          | .error e => (.error e : Except PyErr (List (String × PyVal)))
          | .ok v => match dumpCollect disk rest with
            | .error e => .error e
            | .ok m2 => .ok ((k, v) :: m2)) = .ok m := hok
      show (match loadData disk fn with
            | .error e => (.error e : Except PyErr (List (String × PyVal)))
            | .ok v => match dumpCollect disk (rest ++ [(name, [])]) with
              | .error e => .error e
              | .ok m2 => .ok ((k, v) :: m2)) = _
      cases hv : loadData disk fn with
      | error e =>
        rw [hv] at hok
        simp at hok
      | ok v =>
        rw [hv] at hok
        replace hok : (match dumpCollect disk rest with
            | .error e => (.error e : Except PyErr (List (String × PyVal)))
            | .ok m2 => .ok ((k, v) :: m2)) = .ok m := hok
        show (match dumpCollect disk (rest ++ [(name, [])]) with
              | .error e => (.error e : Except PyErr (List (String × PyVal)))
              | .ok m2 => .ok ((k, v) :: m2)) = _
        cases hm : dumpCollect disk rest with
        | error e =>
          rw [hm] at hok
          simp at hok
        | ok m1 =>
          rw [ih hm]


/-- C10: a failed read is not side-effect free.  On a store whose groups
all decode (so a dump would have succeeded), reading a logical name with no
artifacts — via `last(name)` or via indexing `saver[name, i]` — raises an
IndexError AND, because `self._files` is a `defaultdict`, inserts an empty
group for that name; a subsequent `dump()` then iterates over the empty
group, evaluates `v[-1]`, and fails with an IndexError instead of
exporting the store. -/
theorem failed_read_poisons_dump (st : SaverState) (name : String)
    (hmiss : ddFind st.files name = none)
    (m : List (String × PyVal)) (hok : dumpCollect st.disk st.files = .ok m)
    (fpath : String) (rename : Option String) (wd : Bool) (now : String) (idx : Int) :
    lastOp st (some name)
        = (.error .indexError, { st with files := st.files ++ [(name, [])] }) ∧
    getItemNamedIdx st name idx
        = (.error .indexError, { st with files := st.files ++ [(name, [])] }) ∧
    dump { st with files := st.files ++ [(name, [])] } fpath rename wd now
        = .error .indexError := by
  refine ⟨lastOp_missing_state hmiss, getItemNamedIdx_missing idx hmiss, ?_⟩
  unfold dump
  rw [show ({ st with files := st.files ++ [(name, [])] } : SaverState).files
      = st.files ++ [(name, [])] from rfl]
  rw [show ({ st with files := st.files ++ [(name, [])] } : SaverState).disk = st.disk from rfl]
  rw [dumpCollect_append_empty_group hok name]

/-- Witness for C10: one healthy group, then a read of the absent name
`ghost`. -/
theorem failed_read_poisons_dump_witness :
    lastOp ⟨"ds", [("a", ["a.@1.pkl.z"])], [⟨"a.@1.pkl.z", 0, .jlBytes (.blob 7)⟩], 1⟩
        (some "ghost")
      = (.error .indexError,
         ⟨"ds", [("a", ["a.@1.pkl.z"]), ("ghost", [])],
          [⟨"a.@1.pkl.z", 0, .jlBytes (.blob 7)⟩], 1⟩) ∧
    getItemNamedIdx ⟨"ds", [("a", ["a.@1.pkl.z"])], [⟨"a.@1.pkl.z", 0, .jlBytes (.blob 7)⟩], 1⟩
        "ghost" 0
      = (.error .indexError,
         ⟨"ds", [("a", ["a.@1.pkl.z"]), ("ghost", [])],
          [⟨"a.@1.pkl.z", 0, .jlBytes (.blob 7)⟩], 1⟩) ∧
    dump ⟨"ds", [("a", ["a.@1.pkl.z"]), ("ghost", [])],
          [⟨"a.@1.pkl.z", 0, .jlBytes (.blob 7)⟩], 1⟩ "tmp" none true "now"
      = .error .indexError :=
  failed_read_poisons_dump
    ⟨"ds", [("a", ["a.@1.pkl.z"])], [⟨"a.@1.pkl.z", 0, .jlBytes (.blob 7)⟩], 1⟩
    "ghost" rfl [("a", PyVal.blob 7)] rfl "tmp" none true "now" 0

/-! ### Deletion -/

theorem pyIndex_pos_zero (n : Nat) (h : 0 < n) : pyIndex n 0 = some 0 := by
  unfold pyIndex
  rw [if_neg (by omega : ¬ ((0 : Int) < 0))]
  rw [if_pos (by constructor <;> omega)]
  rfl

theorem removeFile_any {disk : List DFile} {fn : String}
    (h : disk.any (fun f => f.name == fn) = true) :
    removeFile disk fn = .ok (disk.filter (fun f => f.name != fn)) := by
  unfold removeFile
  rw [if_pos h]

theorem lastOp_val {st : SaverState} {nm : String} {g : List String} {fn : String}
    (hfind : ddFind st.files nm = some g) (hlast : g.getLast? = some fn) :
    (lastOp st (some nm)).1 = loadData st.disk fn := by
  rw [lastOp_some, ddAccess_found hfind]
  show (match g.getLast? with
        | none => ((.error .indexError : Except PyErr PyVal), { st with files := st.files })
        | some fn2 => (loadData st.disk fn2, { st with files := st.files })).1 = _
  rw [hlast]

theorem lastOp_err_empty {st : SaverState} {nm : String} {g : List String}
    (hfind : ddFind st.files nm = some g) (hlast : g.getLast? = none) :
    (lastOp st (some nm)).1 = .error .indexError := by
  rw [lastOp_some, ddAccess_found hfind]
  show (match g.getLast? with
        | none => ((.error .indexError : Except PyErr PyVal), { st with files := st.files })
        | some fn2 => (loadData st.disk fn2, { st with files := st.files })).1 = _
  rw [hlast]

theorem rmKey_some_ne {s : String} (hb : (s == "") = false) : rmKey (some s) = s := by
  show (if (s == "") = true then "unnamed" else s) = s
  rw [hb]
  simp

/-- C7: deleting index 0 of a logical name whose history has length
`N ≥ 1` (with the indexed file present on disk, and the group's file names
distinct, as a filesystem scan guarantees) removes exactly that file from
disk and from the in-memory group, leaving the group at length `N - 1` and
every other logical name untouched; afterwards `last(name)` returns the
same value as before when `N > 1` and fails with an IndexError when
`N = 1`. -/
theorem rm_zero_shrinks (st : SaverState) (name : String) (hn : name ≠ "")
    (g : List String) (hfind : ddFind st.files name = some g)
    (hlen : 1 ≤ g.length) (hnd : g.Nodup)
    (hdisk0 : st.disk.any (fun f => f.name == g.getD 0 "") = true) :
    ∃ st', rm st 0 (some name) = .ok st' ∧
      ddFind st'.files name = some g.tail ∧
      g.tail.length = g.length - 1 ∧
      (∀ k, k ≠ name → ddFind st'.files k = ddFind st.files k) ∧
      st'.disk = st.disk.filter (fun f => f.name != g.getD 0 "") ∧
      (1 < g.length → (lastOp st' (some name)).1 = (lastOp st (some name)).1) ∧
      (g.length = 1 → (lastOp st' (some name)).1 = .error .indexError) := by
  obtain ⟨g0, gt, rfl⟩ : ∃ g0 gt, g = g0 :: gt := by
    cases g with
    | nil => simp at hlen
    | cons a b => exact ⟨a, b, rfl⟩
  have hb : (name == "") = false := by simpa using hn
  have hkey : rmKey (some name) = name := rmKey_some_ne hb
  have hrm : rm st 0 (some name) = .ok { st with
      files := ddSet st.files name gt,
      disk := st.disk.filter (fun f => f.name != g0) } := by
    unfold rm
    rw [hkey]
    simp only [ddAccess_found hfind]
    show (match pyIndex (g0 :: gt : List String).length 0 with
          | none => (.error .indexError : Except PyErr SaverState)
          | some j =>
            match removeFile st.disk ((g0 :: gt).getD j "") with
            | .error e => .error e
            | .ok disk1 => .ok { st with
                files := ddSet st.files name ((g0 :: gt).eraseIdx j), disk := disk1 }) = _
    rw [pyIndex_pos_zero (g0 :: gt : List String).length (by simp)]
    show (match removeFile st.disk g0 with
          | .error e => (.error e : Except PyErr SaverState)
          | .ok disk1 => .ok { st with
              files := ddSet st.files name gt, disk := disk1 }) = _
    have hd0 : st.disk.any (fun f => f.name == g0) = true := hdisk0
    rw [removeFile_any hd0]
  refine ⟨_, hrm, ?_, ?_, ?_, ?_, ?_, ?_⟩
  · show ddFind (ddSet st.files name gt) name = some gt
    exact ddFind_ddSet_self gt hfind
  · simp
  · intro k hk
    exact ddFind_ddSet_other gt hk
  · rfl
  · intro h1
    obtain ⟨g1, gt2, rfl⟩ : ∃ g1 gt2, gt = g1 :: gt2 := by
      cases gt with
      | nil => simp at h1
      | cons a b => exact ⟨a, b, rfl⟩
    have hfind' : ddFind (ddSet st.files name (g1 :: gt2)) name = some (g1 :: gt2) :=
      ddFind_ddSet_self _ hfind
    have hlast2 : (g1 :: gt2).getLast? = some ((g1 :: gt2).getLast (List.cons_ne_nil g1 gt2)) :=
      List.getLast?_eq_getLast _ _
    have hlast1 : (g0 :: g1 :: gt2).getLast?
        = some ((g1 :: gt2).getLast (List.cons_ne_nil g1 gt2)) := by
      rw [List.getLast?_cons_cons]
      exact hlast2
    rw [lastOp_val hfind' hlast2, lastOp_val hfind hlast1]
    have hne : (g1 :: gt2).getLast (List.cons_ne_nil g1 gt2) ≠ g0 := by
      intro hc
      have hmem : (g1 :: gt2).getLast (List.cons_ne_nil g1 gt2) ∈ g1 :: gt2 :=
        List.getLast_mem _
      rw [hc] at hmem
      exact (List.nodup_cons.1 hnd).1 hmem
    show loadData (st.disk.filter (fun f => f.name != g0)) _ = loadData st.disk _
    unfold loadData
    rw [find?_filter_other st.disk _ g0 hne]
  · intro h1
    have hnil : gt = [] := by
      cases gt with
      | nil => rfl
      | cons a b => simp at h1
    subst hnil
    have hfind' : ddFind (ddSet st.files name ([] : List String)) name = some [] :=
      ddFind_ddSet_self _ hfind
    exact lastOp_err_empty hfind' rfl

/-- Witness for C7: a two-entry history under `x`. -/
theorem rm_zero_shrinks_witness :
    ∃ st', rm (SaverState.mk "ds" [("x", ["x.@1.pkl.z", "x.@2.pkl.z"])]
          [DFile.mk "x.@1.pkl.z" 0 (FileContent.jlBytes (PyVal.blob 1)),
           DFile.mk "x.@2.pkl.z" 1 (FileContent.jlBytes (PyVal.blob 2))] 2)
        0 (some "x") = .ok st' ∧
      ddFind st'.files "x" = some (["x.@1.pkl.z", "x.@2.pkl.z"] : List String).tail ∧
      (["x.@1.pkl.z", "x.@2.pkl.z"] : List String).tail.length
        = (["x.@1.pkl.z", "x.@2.pkl.z"] : List String).length - 1 ∧
      (∀ k, k ≠ "x" → ddFind st'.files k
        = ddFind (SaverState.mk "ds" [("x", ["x.@1.pkl.z", "x.@2.pkl.z"])]
            [DFile.mk "x.@1.pkl.z" 0 (FileContent.jlBytes (PyVal.blob 1)),
             DFile.mk "x.@2.pkl.z" 1 (FileContent.jlBytes (PyVal.blob 2))] 2).files k) ∧
      st'.disk = (SaverState.mk "ds" [("x", ["x.@1.pkl.z", "x.@2.pkl.z"])]
          [DFile.mk "x.@1.pkl.z" 0 (FileContent.jlBytes (PyVal.blob 1)),
           DFile.mk "x.@2.pkl.z" 1 (FileContent.jlBytes (PyVal.blob 2))] 2).disk.filter
          (fun f => f.name != (["x.@1.pkl.z", "x.@2.pkl.z"] : List String).getD 0 "") ∧
      (1 < (["x.@1.pkl.z", "x.@2.pkl.z"] : List String).length →
        (lastOp st' (some "x")).1
          = (lastOp (SaverState.mk "ds" [("x", ["x.@1.pkl.z", "x.@2.pkl.z"])]
              [DFile.mk "x.@1.pkl.z" 0 (FileContent.jlBytes (PyVal.blob 1)),
               DFile.mk "x.@2.pkl.z" 1 (FileContent.jlBytes (PyVal.blob 2))] 2) (some "x")).1) ∧
      ((["x.@1.pkl.z", "x.@2.pkl.z"] : List String).length = 1 →
        (lastOp st' (some "x")).1 = .error .indexError) :=
  rm_zero_shrinks _ "x" (by decide) ["x.@1.pkl.z", "x.@2.pkl.z"] rfl (by decide) (by decide) rfl

/-! ### Loader cache behaviour -/

theorem lookupFS_writeFS_self (l : List (String × FileContent)) (k : String) (c : FileContent) :
    lookupFS (writeFS l k c) k = some c := by
  induction l with
  | nil => simp [writeFS, lookupFS, List.find?]
  | cons p rest ih =>
    by_cases hp : (p.1 == k) = true
    · rw [writeFS, hp]
      simp only [if_true]
      simp [lookupFS, List.find?]
    · have hp' : (p.1 == k) = false := by simpa using hp
      rw [writeFS, hp']
      simp only [Bool.false_eq_true, if_false]
      simp only [lookupFS, List.find?, hp']
      exact ih

theorem loaderCall_preset_hit (env : LoaderEnv) (fs : LoaderFS) (dname : String)
    (content : FileContent) (v : PyVal)
    (hp : loaderDatasets.contains dname = true)
    (hc : lookupFS fs.datasetDir (dname ++ ".pkl.pd_") = some content)
    (hv : pd_read_pickle content = .ok v) :
    loaderCall env fs dname = .ok (.tabular v, fs, 0) := by
  simp only [loaderCall]
  rw [if_pos hp, hc]
  show (match pd_read_pickle content with
        | .ok v2 => (.ok (.tabular v2, fs, 0) : Except PyErr (LoaderResult × LoaderFS × Nat))
        | .error e => .error e) = _
  rw [hv]

theorem loaderCall_idempotent (env : LoaderEnv) (fs : LoaderFS) (dname : String)
    (out : LoaderResult × LoaderFS × Nat)
    (hp : loaderDatasets.contains dname = true)
    (h1 : loaderCall env fs dname = .ok out) :
    loaderCall env out.2.1 dname = .ok (out.1, out.2.1, 0) := by
  simp only [loaderCall] at h1
  rw [if_pos hp] at h1
  cases hc : lookupFS fs.datasetDir (dname ++ ".pkl.pd_") with
  | some content =>
    rw [hc] at h1
    replace h1 : (match pd_read_pickle content with
        | .ok v2 => (.ok (.tabular v2, fs, 0) : Except PyErr (LoaderResult × LoaderFS × Nat))
        | .error e => .error e) = .ok out := h1
    cases hv : pd_read_pickle content with
    | ok v =>
      rw [hv] at h1
      replace h1 : (.ok (.tabular v, fs, 0) : Except PyErr (LoaderResult × LoaderFS × Nat))
          = .ok out := h1
      injection h1 with h2
      cases h2
      exact loaderCall_preset_hit env fs dname content v hp hc hv
    | error e =>
      rw [hv] at h1
      cases h1
  | none =>
    rw [hc] at h1
    cases hfd : fetchData (env.dsURL dname) with
    | schemeError sc =>
      rw [hfd] at h1
      cases h1
    | httpRequest url =>
      rw [hfd] at h1
      replace h1 : (match pd_read_pickle (env.remote url) with
          | .ok v2 => (.ok (.tabular v2,
              LoaderFS.mk (writeFS fs.datasetDir (dname ++ ".pkl.pd_") (env.remote url))
                fs.cachedDir, 1) : Except PyErr (LoaderResult × LoaderFS × Nat))
          | .error e => .error e) = .ok out := h1
      cases hv : pd_read_pickle (env.remote url) with
      | ok v =>
        rw [hv] at h1
        replace h1 : (.ok (.tabular v,
            LoaderFS.mk (writeFS fs.datasetDir (dname ++ ".pkl.pd_") (env.remote url))
              fs.cachedDir, 1) : Except PyErr (LoaderResult × LoaderFS × Nat))
            = .ok out := h1
        injection h1 with h2
        cases h2
        exact loaderCall_preset_hit env _ dname (env.remote url) v hp
          (lookupFS_writeFS_self fs.datasetDir (dname ++ ".pkl.pd_") (env.remote url)) hv
      | error e =>
        rw [hv] at h1
        cases h1

/-- C5: for a preset dataset name, if the expected cache file
`<name>.pkl.pd_` already exists in the dataset directory then
`Loader.__call__` performs no fetch (third result component 0) and returns
the tabular data decoded from that file, leaving the filesystem untouched;
consequently once any first call has succeeded (populating the cache if it
had to fetch), a second call returns the same result with no network
access, and the cached artifact is never refreshed. -/
theorem loader_cached_no_fetch :
    (∀ env fs dname content v,
        loaderDatasets.contains dname = true →
        lookupFS fs.datasetDir (dname ++ ".pkl.pd_") = some content →
        pd_read_pickle content = .ok v →
        loaderCall env fs dname = .ok (.tabular v, fs, 0)) ∧
    (∀ env fs dname out,
        loaderDatasets.contains dname = true →
        loaderCall env fs dname = .ok out →
        loaderCall env out.2.1 dname = .ok (out.1, out.2.1, 0)) :=
  ⟨fun env fs dname content v hp hc hv => loaderCall_preset_hit env fs dname content v hp hc hv,
   fun env fs dname out hp h1 => loaderCall_idempotent env fs dname out hp h1⟩

/-- Witness for C5: cached `elements` dataset; the second conjunct is
exercised on the same cache-hit call. -/
theorem loader_cached_no_fetch_witness :
    loaderCall (LoaderEnv.mk (fun _ => "http://u") (fun _ => FileContent.pdBytes (PyVal.df ⟨5⟩))
        (fun _ => none) [] "/cached")
      (LoaderFS.mk [("elements.pkl.pd_", FileContent.pdBytes (PyVal.df ⟨7⟩))] [])
      "elements"
      = .ok (.tabular (PyVal.df ⟨7⟩),
          LoaderFS.mk [("elements.pkl.pd_", FileContent.pdBytes (PyVal.df ⟨7⟩))] [], 0) ∧
    loaderCall (LoaderEnv.mk (fun _ => "http://u") (fun _ => FileContent.pdBytes (PyVal.df ⟨5⟩))
        (fun _ => none) [] "/cached")
      ((LoaderResult.tabular (PyVal.df ⟨7⟩),
        LoaderFS.mk [("elements.pkl.pd_", FileContent.pdBytes (PyVal.df ⟨7⟩))] [],
        (0 : Nat)).2.1)
      "elements"
      = .ok ((LoaderResult.tabular (PyVal.df ⟨7⟩),
          LoaderFS.mk [("elements.pkl.pd_", FileContent.pdBytes (PyVal.df ⟨7⟩))] [],
          (0 : Nat)).1,
          (LoaderResult.tabular (PyVal.df ⟨7⟩),
           LoaderFS.mk [("elements.pkl.pd_", FileContent.pdBytes (PyVal.df ⟨7⟩))] [],
           (0 : Nat)).2.1, 0) :=
  ⟨loader_cached_no_fetch.1
      (LoaderEnv.mk (fun _ => "http://u") (fun _ => FileContent.pdBytes (PyVal.df ⟨5⟩))
        (fun _ => none) [] "/cached")
      (LoaderFS.mk [("elements.pkl.pd_", FileContent.pdBytes (PyVal.df ⟨7⟩))] [])
      "elements" (FileContent.pdBytes (PyVal.df ⟨7⟩)) (PyVal.df ⟨7⟩) rfl rfl rfl,
   loader_cached_no_fetch.2
      (LoaderEnv.mk (fun _ => "http://u") (fun _ => FileContent.pdBytes (PyVal.df ⟨5⟩))
        (fun _ => none) [] "/cached")
      (LoaderFS.mk [("elements.pkl.pd_", FileContent.pdBytes (PyVal.df ⟨7⟩))] [])
      "elements"
      (LoaderResult.tabular (PyVal.df ⟨7⟩),
       LoaderFS.mk [("elements.pkl.pd_", FileContent.pdBytes (PyVal.df ⟨7⟩))] [], 0)
      rfl rfl⟩
